import Mathlib

/-!
Verification of the content-addressable version-control core implemented by
the two Python sources of this repository: pygit (pygit.py) and
write-yourself-a-git (libwyag.py).

Python byte strings are modelled as lists of naturals (each byte a value
below 256 where it matters), Python text strings as Lean strings, and the
file system touched by the object store as an explicit state record.
Python functions that can raise are modelled with Option or Except;
unbounded recursion in the sources is modelled with an explicit fuel
parameter, and theorems quantify over all sufficiently large fuels.
-/

set_option maxRecDepth 10000

deriving instance DecidableEq for Except

/-! ## Python primitives: find, slicing, splitting, int parsing -/

/-- Index of the first occurrence of byte b in l at position s or later
(the index part of python bytes.find). -/
def findAt : List Nat → Nat → Nat → Option Nat
  | [], _, _ => none
  | x :: xs, b, 0 => if x = b then some 0 else (findAt xs b 0).map (· + 1)
  | _ :: xs, b, s + 1 => (findAt xs b s).map (· + 1)

/-- python bytes.find with a natural start: first index at or after s, or -1. -/
def bFind (l : List Nat) (b : Nat) (s : Nat) : Int :=
  match findAt l b s with
  | some t => (t : Int)
  | none => -1

/-- Normalise a python slice or find bound to an absolute index
(negative values count from the end, results are clamped to the range). -/
def pyBound (len : Nat) (i : Int) : Nat :=
  if i < 0 then Int.toNat ((len : Int) + i) else min i.toNat len

/-- python bytes.find with a possibly negative start. -/
def pyFind (l : List Nat) (b : Nat) (s : Int) : Int :=
  bFind l b (pyBound l.length s)

/-- python l[a:b] for step-1 slices, with python index normalisation. -/
def pySlice (l : List Nat) (a b : Int) : List Nat :=
  (l.take (pyBound l.length b)).drop (pyBound l.length a)

/-- python l[a:] for step-1 slices. -/
def pySliceFrom (l : List Nat) (a : Int) : List Nat :=
  l.drop (pyBound l.length a)

/-- Bytes of a Lean string (python str.encode restricted to the code points
the sources ever encode; for the ASCII data of these claims this is exact). -/
def strToBytes (s : String) : List Nat := s.data.map Char.toNat

/-- python bytes.decode for the ASCII range: the decode calls in the sources
only ever see ASCII headers and paths in the verified scenarios. A byte of
128 or above is treated as a decode failure. -/
def pyDecodeAscii (l : List Nat) : Option String :=
  if l.all (· < 128) then some (String.mk (l.map Char.ofNat)) else none

/-- python str whitespace test for the characters str.split treats as
separators in the ASCII range. -/
def isPyWs (c : Char) : Bool :=
  c = ' ' || c = '\t' || c = '\n' || c = '\r' || c = '\x0b' || c = '\x0c'

/-- Worker for python str.split with no arguments: split on whitespace runs,
dropping empty words. The accumulator holds the current word reversed. -/
def splitWsGo : List Char → List Char → List (List Char)
  | [], acc => if acc = [] then [] else [acc.reverse]
  | c :: cs, acc =>
    if isPyWs c then
      if acc = [] then splitWsGo cs [] else acc.reverse :: splitWsGo cs []
    else splitWsGo cs (c :: acc)

/-- python str.split with no arguments. -/
def pySplitWs (s : String) : List String :=
  (splitWsGo s.data []).map String.mk

/-- Value of a decimal digit character. -/
def decVal (c : Char) : Nat := c.toNat - 48

/-- Decimal digit test. -/
def isDecDigit (c : Char) : Bool := decide (48 ≤ c.toNat ∧ c.toNat ≤ 57)

/-- python int(s) restricted to the forms the sources produce: optional
surrounding whitespace around a nonempty run of decimal digits (the
sources never parse signed or underscored numerals). -/
def pyIntDec (s : String) : Option Nat :=
  let t := ((s.data.dropWhile isPyWs).reverse.dropWhile isPyWs).reverse
  if t ≠ [] ∧ t.all isDecDigit then
    some (t.foldl (fun a c => 10 * a + decVal c) 0)
  else none

/-- Value of a hexadecimal digit character (both cases). -/
def hexVal (c : Char) : Nat :=
  if c.toNat ≤ 57 then c.toNat - 48
  else if c.toNat ≤ 70 then c.toNat - 55
  else c.toNat - 87

/-- Hexadecimal digit test (both cases), as python int(s, 16) accepts. -/
def isHexDigit (c : Char) : Bool :=
  decide ((48 ≤ c.toNat ∧ c.toNat ≤ 57) ∨ (65 ≤ c.toNat ∧ c.toNat ≤ 70)
    ∨ (97 ≤ c.toNat ∧ c.toNat ≤ 102))

/-- Lowercase hexadecimal digit test. -/
def isLowerHex (c : Char) : Bool :=
  decide ((48 ≤ c.toNat ∧ c.toNat ≤ 57) ∨ (97 ≤ c.toNat ∧ c.toNat ≤ 102))

/-- python int(s, 16) restricted to the forms the sources produce: a
nonempty run of hex digits (no sign, no 0x marker, no whitespace). -/
def pyIntHex (s : String) : Option Nat :=
  if s.data ≠ [] ∧ s.data.all isHexDigit then
    some (s.data.foldl (fun a c => 16 * a + hexVal c) 0)
  else none

/-- Little-endian base-b digits with explicit fuel (a structurally recursive
clone of the mathematical digits function, so that concrete renderings
evaluate inside the kernel). -/
def digitsGo (b : Nat) : Nat → Nat → List Nat
  | 0, _ => []
  | _ + 1, 0 => []
  | fuel + 1, n + 1 => (n + 1) % b :: digitsGo b fuel ((n + 1) / b)

/-- Little-endian base-b digits of n. -/
def digitsOf (b n : Nat) : List Nat := digitsGo b n n

/-- python str(n) for a natural: minimal decimal digits, 0 rendered as 0. -/
def natToDec (n : Nat) : String :=
  if n = 0 then "0" else String.mk (((digitsOf 10 n).map Nat.digitChar).reverse)

/-- python hex(n) with the 0x marker stripped, as tree_parse_one computes it:
minimal lowercase hex digits, without zero padding. -/
def natToHexMin (n : Nat) : String :=
  if n = 0 then "0" else String.mk (((digitsOf 16 n).map Nat.digitChar).reverse)

/-- python int.from_bytes(l, big). -/
def bytesToNat (l : List Nat) : Nat := l.foldl (fun a b => 256 * a + b) 0

/-- Big-endian fixed-width byte rendering of a natural (helper for
int.to_bytes, truncating; the checked version is pyToBytesBE). -/
def toBytesBE : Nat → Nat → List Nat
  | 0, _ => []
  | k + 1, n => toBytesBE k (n / 256) ++ [n % 256]

/-- python n.to_bytes(k, big): OverflowError when n does not fit. -/
def pyToBytesBE (k n : Nat) : Option (List Nat) :=
  if n < 256 ^ k then some (toBytesBE k n) else none

/-- Two lowercase hex characters for one byte (helper for bytes.hex). -/
def byteHex (b : Nat) : List Char :=
  [Nat.digitChar (b / 16 % 16), Nat.digitChar (b % 16)]

/-- python bytes.hex(): two lowercase hex digits per byte. -/
def bytesToHex (l : List Nat) : String := String.mk ((l.map byteHex).flatten)

/-- Concatenation of a list of byte strings. -/
def catList (ls : List (List Nat)) : List Nat := ls.foldr (· ++ ·) []

/-! ## libwyag ref resolution (ref_resolve) -/

/-- Errors of the modelled ref resolver. The source has no cycle guard, so
the only outcomes are a resolved text, a missing file, or fuel exhaustion
(which models the infinite recursion of the python source on a ref cycle). -/
inductive RefErr where
  | missingFile
  | outOfFuel
deriving DecidableEq

/-- Drop the final character of a string (python s[:-1] on text). -/
def strDropLast (s : String) : String := String.mk s.data.dropLast

/-- python str.startswith. -/
def strStartsWith (s pre : String) : Bool := pre.data.isPrefixOf s.data

/-- Drop the first n characters of a string (python s[n:] on text). -/
def strDropN (s : String) (n : Nat) : String := String.mk (s.data.drop n)

/-- libwyag ref_resolve: read the ref file, drop the trailing newline, and
if the text starts with the indirection marker recurse on the target name.
The repository is modelled as a map from ref name to file content. The
python source recurses without any bound; the fuel parameter makes that
recursion explicit, and outOfFuel at every fuel witnesses divergence. -/
def ref_resolve (files : String → Option String) : Nat → String → Except RefErr String
  | 0, _ => .error .outOfFuel
  | fuel + 1, ref =>
    match files ref with
    | none => .error .missingFile
    | some content =>
      let data := strDropLast content
      if strStartsWith data "ref: " then ref_resolve files fuel (strDropN data 5)
      else .ok data

/-- A repository whose refs form the two-cycle A to B to A. -/
def cycleRefs : String → Option String := fun r =>
  if r = "A" then some "ref: B\n"
  else if r = "B" then some "ref: A\n"
  else none

/-! ## File-system state for the object stores

Objects live in two-level directories: a directory name and a file name
inside it. The write log records every file write performed, so that the
rewrite behaviour of the two sources can be distinguished even when a
rewrite stores identical bytes. -/

structure FS where
  dirs : List String
  files : List ((String × String) × List Nat)
  writeLog : List (String × String)
deriving DecidableEq

def emptyFS : FS := ⟨[], [], []⟩

/-- os.path.exists for an object file. -/
def fsHasFile (fs : FS) (d f : String) : Bool :=
  fs.files.any (fun e => e.1 = (d, f))

/-- Store a value under a key in an association list, replacing the first
occurrence in place or appending at the end. -/
def setKey (k : String × String) (v : List Nat) :
    List ((String × String) × List Nat) → List ((String × String) × List Nat)
  | [] => [(k, v)]
  | e :: es => if e.1 = k then (k, v) :: es else e :: setKey k v es

/-- One file write, together with os.makedirs on its directory: both python
sources create the object subdirectory right before writing into it. -/
def fsWrite (fs : FS) (d f : String) (data : List Nat) : FS :=
  ⟨if fs.dirs.contains d then fs.dirs else d :: fs.dirs,
   setKey (d, f) data fs.files,
   (d, f) :: fs.writeLog⟩

/-- Read a file back (open plus read). -/
def fsReadFile (fs : FS) (d f : String) : Option (List Nat) :=
  (fs.files.find? (fun e => e.1 = (d, f))).map (·.2)

/-- os.listdir: FileNotFoundError (none) when the directory was never
created, otherwise the file names inside it. -/
def listdir (fs : FS) (d : String) : Option (List String) :=
  if fs.dirs.contains d then
    some ((fs.files.filter (fun e => e.1.1 = d)).map (fun e => e.1.2))
  else none

/-- zlib.compress, modelled as the identity on byte strings: the claims only
use the DEFLATE codec through the fact that decompression inverts
compression, so the byte-level encoding is not modelled. -/
def zlib_compress (l : List Nat) : List Nat := l

/-- zlib.decompress, inverse of the modelled zlib_compress. -/
def zlib_decompress (l : List Nat) : List Nat := l

/-! ## pygit object store -/

/-- The canonical object content: type, space, decimal length, NUL, payload.
Both sources build exactly this byte string before hashing. -/
def fullData (objType : String) (data : List Nat) : List Nat :=
  strToBytes (objType ++ " " ++ natToDec data.length) ++ 0 :: data

/-- Object directory for a hex digest: .git/objects plus the first two
characters. -/
def objDirOf (sha : String) : String :=
  ".git/objects/" ++ String.mk (sha.data.take 2)

/-- Object file name for a hex digest: the remaining characters. -/
def objFileOf (sha : String) : String := String.mk (sha.data.drop 2)

/-- pygit hash_object. The SHA-1 hex digest is abstracted as a function
parameter h from bytes to hex strings (hashlib is an external library);
theorems hypothesise only that h yields 40 characters. Writing is skipped
when the object file already exists. -/
def hash_object (h : List Nat → String) (data : List Nat) (objType : String)
    (write : Bool) (fs : FS) : String × FS :=
  let full := fullData objType data
  let sha := h full
  if write && !(fsHasFile fs (objDirOf sha) (objFileOf sha)) then
    (sha, fsWrite fs (objDirOf sha) (objFileOf sha) (zlib_compress full))
  else (sha, fs)

/-- Errors raised by the pygit store: ValueError with its message, or an
uncaught OSError FileNotFoundError (raised by os.listdir on a directory
that does not exist). -/
inductive PgErr where
  | valueErr (msg : String)
  | fileNotFound (dir : String)
deriving DecidableEq

/-- pygit find_object: reject short prefixes, list the two-character
subdirectory, and keep the entries whose name starts with the rest of the
prefix; zero matches and two or more matches are ValueErrors with the
messages of the source. -/
def find_object (fs : FS) (pfx : String) : Except PgErr (String × String) :=
  if pfx.length < 2 then
    .error (.valueErr "hash prefix must be 2 or more characters")
  else
    let objDir := ".git/objects/" ++ String.mk (pfx.data.take 2)
    let rest := String.mk (pfx.data.drop 2)
    match listdir fs objDir with
    | none => .error (.fileNotFound objDir)
    | some names =>
      match names.filter (fun n => rest.data.isPrefixOf n.data) with
      | [] => .error (.valueErr ("object " ++ pfx ++ " not found"))
      | [o] => .ok (objDir, o)
      | o1 :: o2 :: os =>
        .error (.valueErr ("multiple objects (" ++ natToDec (o1 :: o2 :: os).length
          ++ ") with prefix " ++ pfx))

/-- pygit read_object: locate the file, decompress, split the header at the
first NUL, decode it and split it on whitespace into type and size, check
the declared size, and return type and payload. No validation of the type
tag is performed. -/
def read_object (fs : FS) (pfx : String) : Except PgErr (String × List Nat) :=
  match find_object fs pfx with
  | .error e => .error e
  | .ok (d, f) =>
    match fsReadFile fs d f with
    | none => .error (.fileNotFound (d ++ "/" ++ f))
    | some fileData =>
      let full := zlib_decompress fileData
      match findAt full 0 0 with
      | none => .error (.valueErr "subsection not found")
      | some nulIdx =>
        match pyDecodeAscii (full.take nulIdx) with
        | none => .error (.valueErr "decode error")
        | some hs =>
          match pySplitWs hs with
          | [t, szs] =>
            match pyIntDec szs with
            | none => .error (.valueErr "invalid literal for int")
            | some size =>
              let data := full.drop (nulIdx + 1)
              if size ≠ data.length then
                .error (.valueErr ("expected size " ++ natToDec size ++ ", but got "
                  ++ natToDec data.length ++ " bytes"))
              else .ok (t, data)
          | _ => .error (.valueErr "unpack error")

/-! ## libwyag object writing -/

/-- libwyag object_write for an object whose serialization is data and whose
format tag is fmt: build the same canonical header, hash, and, when
actually_write is set, create the directory and write the compressed bytes.
Unlike pygit hash_object there is no existence check: the file is written
unconditionally. -/
def object_write (h : List Nat → String) (fmt : String) (data : List Nat)
    (actuallyWrite : Bool) (fs : FS) : String × FS :=
  let result := strToBytes fmt ++ 32 :: strToBytes (natToDec data.length) ++ 0 :: data
  let sha := h result
  if actuallyWrite then
    (sha, fsWrite fs (objDirOf sha) (objFileOf sha) (zlib_compress result))
  else (sha, fs)

/-! ## libwyag tree codec -/

/-- One tree entry as GitTreeLeaf holds it after parsing: raw mode bytes,
raw path bytes, and the digest as the hex string produced by
tree_parse_one. -/
structure TreeLeaf where
  mode : List Nat
  path : List Nat
  sha : String
deriving DecidableEq

/-- libwyag tree_parse_one: mode up to the first space (asserted to be 5 or
6 bytes long), path up to the first NUL, then twenty raw digest bytes
rendered through hex() with the 0x marker stripped, which produces a
minimal hex string without leading zeros. Returns the next position and
the leaf; a failed assertion is none. -/
def tree_parse_one (raw : List Nat) (start : Nat) : Option (Nat × TreeLeaf) :=
  let x := bFind raw 32 start
  if x - (start : Int) = 5 ∨ x - (start : Int) = 6 then
    let mode := pySlice raw start x
    let y := pyFind raw 0 x
    let path := pySlice raw (x + 1) y
    let sha := natToHexMin (bytesToNat (pySlice raw (y + 1) (y + 21)))
    some (Int.toNat (y + 21), ⟨mode, path, sha⟩)
  else none

/-- Worker for libwyag tree_parse: repeat tree_parse_one while the position
is below the length. The python loop can fail to advance on malformed
input, so the recursion carries explicit fuel. -/
def tree_parse_go : Nat → List Nat → Nat → Option (List TreeLeaf)
  | 0, _, _ => none
  | fuel + 1, raw, pos =>
    if pos < raw.length then
      match tree_parse_one raw pos with
      | none => none
      | some (p2, leaf) => (tree_parse_go fuel raw p2).map (leaf :: ·)
    else some []

/-- libwyag tree_parse with explicit fuel. -/
def tree_parse (fuel : Nat) (raw : List Nat) : Option (List TreeLeaf) :=
  tree_parse_go fuel raw 0

/-- libwyag tree_serialize: emit mode, space, path, NUL, then the digest
string parsed back through int(sha, 16) and rendered as twenty big-endian
bytes. int raises on non-hex digests and to_bytes overflows past twenty
bytes, hence the Option. -/
def tree_serialize : List TreeLeaf → Option (List Nat)
  | [] => some []
  | i :: is =>
    match pyIntHex i.sha with
    | none => none
    | some n =>
      match pyToBytesBE 20 n with
      | none => none
      | some shaBytes =>
        (tree_serialize is).map (fun r => i.mode ++ 32 :: i.path ++ 0 :: shaBytes ++ r)

/-! ## libwyag KVLM codec -/

/-- A value in the key-value-list-with-message mapping: a byte string or a
list of byte strings (python stores either bytes or a list of bytes). -/
inductive VVal where
  | scalar (v : List Nat)
  | vlist (vs : List (List Nat))
deriving DecidableEq

/-- The ordered mapping of kvlm_parse and kvlm_serialize: an ordered
association list standing for the python OrderedDict (whose keys are
unique and whose equality is order-sensitive). -/
abbrev Dct := List (List Nat × VVal)

/-- First value stored under a key. -/
def lookupV (k : List Nat) : Dct → Option VVal
  | [] => none
  | (k2, v) :: es => if k2 = k then some v else lookupV k es

/-- The duplicate-key collection step of kvlm_parse: appending to an
existing list value, promoting an existing scalar to a two-element list,
or adding a new key at the end, always preserving key positions. -/
def dctAddValue (k v : List Nat) : Dct → Dct
  | [] => [(k, .scalar v)]
  | (k2, v2) :: es =>
    if k2 = k then
      match v2 with
      | .scalar old => (k2, .vlist [old, v]) :: es
      | .vlist olds => (k2, .vlist (olds ++ [v])) :: es
    else (k2, v2) :: dctAddValue k v es

/-- Plain key assignment (dct with key set to value), replacing in place or
appending at the end. -/
def dctSet (k : List Nat) (v : VVal) : Dct → Dct
  | [] => [(k, v)]
  | (k2, v2) :: es => if k2 = k then (k, v) :: es else (k2, v2) :: dctSet k v es

/-- The continuation encoding of kvlm_serialize: value.replace of newline by
newline plus space. -/
def encodeCont : List Nat → List Nat
  | [] => []
  | c :: rest => if c = 10 then 10 :: 32 :: encodeCont rest else c :: encodeCont rest

/-- The continuation decoding of kvlm_parse: value.replace of newline plus
space by newline, scanning left to right without overlap. -/
def decodeCont : List Nat → List Nat
  | [] => []
  | [c] => [c]
  | c :: c2 :: rest =>
    if c = 10 ∧ c2 = 32 then 10 :: decodeCont rest else c :: decodeCont (c2 :: rest)

/-- The while loop of kvlm_parse searching for the end of a value: find the
next newline after e and stop when the byte after it is not a space. A
byte access one past the end is an IndexError (none); the loop can cycle
on malformed input, so it carries explicit fuel. -/
def findValueEnd (raw : List Nat) : Nat → Int → Option Int
  | 0, _ => none
  | fuel + 1, e =>
    let e2 := bFind raw 10 (Int.toNat (e + 1))
    match raw[Int.toNat (e2 + 1)]? with
    | none => none
    | some c => if c = 32 then findValueEnd raw fuel e2 else some e2

/-- Worker for libwyag kvlm_parse. One step per header line: locate the next
space and newline from start; if the newline comes first the line must be
blank (asserted) and the remainder is the message stored under the empty
key; otherwise read key, scan to the end of the value with its
continuation lines, fold the continuation encoding away, collect the
key-value pair, and recurse after the value. The python recursion can
diverge, hence the fuel. -/
def kvlmParseGo : Nat → List Nat → Nat → Dct → Option Dct
  | 0, _, _, _ => none
  | fuel + 1, raw, start, dct =>
    let spc := bFind raw 32 start
    let nl := bFind raw 10 start
    if spc < 0 ∨ nl < spc then
      if nl = (start : Int) then
        some (dctSet [] (.scalar (pySliceFrom raw ((start : Int) + 1))) dct)
      else none
    else
      match findValueEnd raw (fuel + 1) start with
      | none => none
      | some e =>
        let key := pySlice raw start spc
        let value := decodeCont (pySlice raw (spc + 1) e)
        kvlmParseGo fuel raw (Int.toNat (e + 1)) (dctAddValue key value dct)

/-- libwyag kvlm_parse from position zero with an empty mapping (the python
dct argument defaults to a fresh OrderedDict; the pure model needs no
guard against the shared-default pitfall the source comments on). -/
def kvlm_parse (fuel : Nat) (raw : List Nat) : Option Dct :=
  kvlmParseGo fuel raw 0 []

/-- One serialized header line: key, space, continuation-encoded value,
newline. -/
def lineFor (k v : List Nat) : List Nat := k ++ 32 :: (encodeCont v ++ [10])

/-- The bytes kvlm_serialize emits for one mapping entry: nothing for the
message key, one line per value otherwise. -/
def fieldBytes : List Nat × VVal → List Nat
  | (k, v) =>
    if k = [] then []
    else
      match v with
      | .scalar x => lineFor k x
      | .vlist xs => catList (xs.map (lineFor k))

/-- The header-field part of kvlm_serialize output. -/
def kvlmFields (d : Dct) : List Nat := catList (d.map fieldBytes)

/-- libwyag kvlm_serialize: emit every field, then a blank line and the
message stored under the empty key. A mapping without the message entry is
a KeyError, and a list-valued message entry is a TypeError when python
concatenates bytes with a list; both are none. -/
def kvlm_serialize (d : Dct) : Option (List Nat) :=
  match lookupV [] d with
  | some (.scalar m) => some (kvlmFields d ++ 10 :: m)
  | some (.vlist _) => none
  | none => none

/-- The header lines kvlm_serialize emits for a mapping, as key-value pairs
in emission order: one pair per scalar value and one pair per element of a
list value. -/
def linePairs : Dct → List (List Nat × List Nat)
  | [] => []
  | (k, VVal.scalar x) :: es => (k, x) :: linePairs es
  | (k, VVal.vlist xs) :: es => xs.map (fun x => (k, x)) ++ linePairs es

/-! ## libwyag object reading -/

/-- A parsed libwyag object: the closed four-way union of the source
constructors, holding the deserialized payload each constructor builds. -/
inductive GitObj where
  | blob (data : List Nat)
  | tree (items : List TreeLeaf)
  | commit (kvlm : Dct)
  | tag (kvlm : Dct)
deriving DecidableEq

/-- Errors of libwyag object_read: bad declared length, an unknown type tag
(carrying the raw tag bytes and the digest), or a failure inside the
deserializer the chosen constructor runs. -/
inductive WyErr where
  | malformed (sha : String)
  | unknownType (fmt : List Nat) (sha : String)
  | deserializeFailure
  | headerError
deriving DecidableEq

/-- libwyag object_read on the raw bytes of one object file: decompress,
take the type tag up to the first space and the declared size up to the
first NUL, check the size against the payload, then dispatch on the tag;
a tag outside blob, tree, commit and tag is a hard error. The kvlm and
tree deserializers of the chosen constructor run with fuel bounded by the
payload length as elsewhere. -/
def object_read (fileBytes : List Nat) (sha : String) : Except WyErr GitObj :=
  let raw := zlib_decompress fileBytes
  let x := bFind raw 32 0
  let fmt := pySlice raw 0 x
  let y := pyFind raw 0 x
  match pyDecodeAscii (pySlice raw x y) with
  | none => .error .headerError
  | some szs =>
    match pyIntDec szs with
    | none => .error .headerError
    | some size =>
      if (size : Int) ≠ (raw.length : Int) - y - 1 then .error (.malformed sha)
      else
        let data := pySliceFrom raw (y + 1)
        if fmt = strToBytes "commit" then
          match kvlm_parse (data.length + 2) data with
          | none => .error .deserializeFailure
          | some k => .ok (.commit k)
        else if fmt = strToBytes "tree" then
          match tree_parse (data.length + 1) data with
          | none => .error .deserializeFailure
          | some items => .ok (.tree items)
        else if fmt = strToBytes "tag" then
          match kvlm_parse (data.length + 2) data with
          | none => .error .deserializeFailure
          | some k => .ok (.tag k)
        else if fmt = strToBytes "blob" then .ok (.blob data)
        else .error (.unknownType fmt sha)

/-! ## pygit index parser -/

/-- Errors of pygit read_index, in the order the source can raise them: the
checksum assertion, the struct.error of a short header, the signature and
version assertions, a missing NUL path terminator (ValueError from
bytes.index), a path decode failure, the final entry-count assertion, and
the fuel sentinel of the modelled loop. -/
inductive IdxErr where
  | checksumMismatch
  | shortHeader
  | badSignature
  | badVersion
  | noPathTerminator
  | decodeFailure
  | countMismatch
  | outOfFuel
deriving DecidableEq

/-- One staged-file record of the pygit index, as the IndexEntry namedtuple
holds it after parsing. -/
structure PIndexEntry where
  ctime_s : Nat
  ctime_n : Nat
  mtime_s : Nat
  mtime_n : Nat
  dev : Nat
  ino : Nat
  mode : Nat
  uid : Nat
  gid : Nat
  size : Nat
  sha1 : List Nat
  flags : Nat
  path : String
deriving DecidableEq

/-- Big-endian 4-byte field at offset o (one L of struct.unpack). -/
def u32At (l : List Nat) (o : Nat) : Nat := bytesToNat ((l.drop o).take 4)

/-- Big-endian 2-byte field at offset o (the H of struct.unpack). -/
def u16At (l : List Nat) (o : Nat) : Nat := bytesToNat ((l.drop o).take 2)

/-- The entry loop of read_index: while 62 bytes of fixed fields fit
strictly inside the remaining entry data, unpack them, read the
NUL-terminated path, and skip to the next 8-byte-aligned entry start. -/
def readEntriesGo : Nat → List Nat → Nat → Except IdxErr (List PIndexEntry)
  | 0, _, _ => .error .outOfFuel
  | fuel + 1, entryData, i =>
    if i + 62 < entryData.length then
      let e62 := pySlice entryData (i : Int) ((i : Int) + 62)
      match findAt entryData 0 (i + 62) with
      | none => .error .noPathTerminator
      | some pathEnd =>
        let path := pySlice entryData ((i : Int) + 62) (pathEnd : Int)
        match pyDecodeAscii path with
        | none => .error .decodeFailure
        | some pathStr =>
          let entry : PIndexEntry :=
            ⟨u32At e62 0, u32At e62 4, u32At e62 8, u32At e62 12, u32At e62 16,
             u32At e62 20, u32At e62 24, u32At e62 28, u32At e62 32, u32At e62 36,
             (e62.drop 40).take 20, u16At e62 60, pathStr⟩
          match readEntriesGo fuel entryData (i + ((62 + path.length + 8) / 8) * 8) with
          | .error er => .error er
          | .ok rest => .ok (entry :: rest)
    else .ok []

/-- pygit read_index on the raw index bytes. The trailing 20-byte digest is
checked first against the hash of everything before it (the hash is the
abstract digest parameter h); then the 12-byte header is unpacked and its
signature and version asserted, the entries parsed, and their number
compared with the declared count. -/
def read_index (h : List Nat → List Nat) (data : List Nat) :
    Except IdxErr (List PIndexEntry) :=
  if h (pySlice data 0 (-20)) ≠ pySliceFrom data (-20) then .error .checksumMismatch
  else if data.length < 12 then .error .shortHeader
  else
    let sig := data.take 4
    let version := u32At data 4
    let numEntries := u32At data 8
    if sig ≠ [68, 73, 82, 67] then .error .badSignature
    else if version ≠ 2 then .error .badVersion
    else
      let entryData := pySlice data 12 (-20)
      match readEntriesGo (entryData.length + 1) entryData 0 with
      | .error e => .error e
      | .ok entries =>
        if entries.length = numEntries then .ok entries else .error .countMismatch

/-! ## pygit working-tree status -/

/-- Lexicographic less-or-equal on code points, python string comparison. -/
def charsLe : List Char → List Char → Bool
  | [], _ => true
  | _ :: _, [] => false
  | a :: as, b :: bs =>
    if a.toNat < b.toNat then true
    else if a.toNat = b.toNat then charsLe as bs else false

/-- python string less-or-equal. -/
def strLeB (a b : String) : Bool := charsLe a.data b.data

/-- Insert into a sorted list of strings. -/
def insertSorted (x : String) : List String → List String
  | [] => [x]
  | y :: ys => if strLeB x y then x :: y :: ys else y :: insertSorted x ys

/-- python sorted on strings. python uses a stable mergesort, but on the
walked path sets (whose elements are pairwise distinct strings) every
comparison sort returns the same strictly ordered list, so insertion sort
is an exact model. -/
def pySorted : List String → List String
  | [] => []
  | x :: xs => insertSorted x (pySorted xs)

/-- pygit get_status. The os.walk enumeration of regular files under the
worktree (minus the .git directory) is modelled as the input list of
path-content pairs, and read_index output as the input entry list; the
source turns both into sets and dictionaries keyed by path, which the
theorems mirror under no-duplicate hypotheses. A path is changed when the
dry-run digest of its content (hash_object with write false) differs from
the stored digest rendered in hex. -/
def get_status (h : List Nat → String) (files : List (String × List Nat))
    (entries : List PIndexEntry) : List String × List String × List String :=
  let paths := files.map Prod.fst
  let entryPaths := entries.map PIndexEntry.path
  let changed := paths.filter (fun p =>
    entryPaths.contains p &&
      match files.find? (fun f => f.1 = p), entries.find? (fun e => e.path = p) with
      | some f, some e =>
        (hash_object h f.2 "blob" false emptyFS).1 != bytesToHex e.sha1
      | _, _ => false)
  let newPaths := paths.filter (fun p => !entryPaths.contains p)
  let deleted := entryPaths.filter (fun p => !paths.contains p)
  (pySorted changed, pySorted newPaths, pySorted deleted)

/-! ## Concrete instances used by counterexamples and witnesses -/

/-- A concrete stand-in for the abstract SHA-1 hex digest: a constant
40-character hex string (the round-trip and error-path theorems only use
the digest length, so a constant suffices to instantiate them). -/
def hConst : List Nat → String := fun _ => "aaaaaaaaaaaaaaaaaaaaaaaaaaaaaaaaaaaaaaaa"

/-- A tree entry whose 40-character lowercase hex digest starts with a zero
digit. -/
def ceLeaf : TreeLeaf := ⟨[52, 48, 48, 48, 48], [97], "0aaaaaaaaaaaaaaaaaaaaaaaaaaaaaaaaaaaaaaa"⟩

/-- What tree_parse returns for the serialization of ceLeaf: the same entry
with a 39-character digest, the leading zero gone. -/
def ceParsed : TreeLeaf := ⟨[52, 48, 48, 48, 48], [97], "aaaaaaaaaaaaaaaaaaaaaaaaaaaaaaaaaaaaaaa"⟩

/-- A tree entry whose digest has no leading zero (and whose path contains a
space, which tree parsing tolerates). -/
def okLeaf : TreeLeaf := ⟨[52, 48, 48, 48, 48], [97, 32, 98], "10aaaaaaaaaaaaaaaaaaaaaaaaaaaaaaaaaaaaaa"⟩

/-- A store with two objects in directory ab whose names share every prefix
length up to two characters. -/
def fsAB : FS :=
  ⟨[".git/objects/ab"],
   [((".git/objects/ab", "cccccccccccccccccccccccccccccccccccccc"), [1]),
    ((".git/objects/ab", "dddddddddddddddddddddddddddddddddddddd"), [2])], []⟩

/-- A KVLM mapping with one singleton-list value and a trailing message. -/
def kCE : Dct := [([97], .vlist [[120]]), ([], .scalar [109])]

/-- What kvlm_parse returns for the serialization of kCE: the singleton list
has collapsed to a scalar. -/
def kCEParsed : Dct := [([97], .scalar [120]), ([], .scalar [109])]

/-- A well-formed KVLM mapping: a scalar field, a two-element list field,
and a trailing message. -/
def kOK : Dct := [([97], .scalar [120]), ([98], .vlist [[1], [2]]), ([], .scalar [109])]

/-- A KVLM mapping without the empty-key message entry. -/
def kNoMsg : Dct := [([97], .scalar [120])]

/-- A concrete stand-in for the abstract 20-byte index digest: twenty copies
of the byte sum. A single byte flip always changes it. -/
def hSum : List Nat → List Nat := fun l => List.replicate 20 (l.foldl (· + ·) 0 % 256)

/-- Valid index header: DIRC, version 2, one entry. -/
def hdrW : List Nat := [68, 73, 82, 67] ++ [0, 0, 0, 2] ++ [0, 0, 0, 1]

/-- One index entry region: zeroed fixed fields, path a, NUL, padded to 64
bytes. -/
def entryW : List Nat := List.replicate 40 0 ++ List.replicate 20 0 ++ [0, 0] ++ [97, 0]

/-- A complete valid index file under hSum. -/
def dataW : List Nat := hdrW ++ entryW ++ hSum (hdrW ++ entryW)

/-- The entry read_index extracts from dataW. -/
def entW1 : PIndexEntry := ⟨0, 0, 0, 0, 0, 0, 0, 0, 0, 0, List.replicate 20 0, 0, "a"⟩

/-- Working-tree files for the status witness: path a (tracked, content
changed) and path b (untracked). -/
def filesW : List (String × List Nat) := [("a", [1]), ("b", [2])]

/-- Index entries for the status witness: path a (present on disk) and path
c (deleted from disk). -/
def entriesW : List PIndexEntry :=
  [⟨0, 0, 0, 0, 0, 0, 0, 0, 0, 0, List.replicate 20 0, 0, "a"⟩,
   ⟨0, 0, 0, 0, 0, 0, 0, 0, 0, 0, List.replicate 20 0, 0, "c"⟩]

/-- A two-character digest function for the status witness, distinct from
the hex rendering of the stored twenty-zero-byte digests. -/
def hW : List Nat → String := fun _ => "00"

/-! ## Theorems -/

/-- Helper: both halves of the cyclic resolution run out of any fuel. -/
theorem ref_resolve_cycle_both (n : Nat) :
    ref_resolve cycleRefs n "A" = .error .outOfFuel ∧
    ref_resolve cycleRefs n "B" = .error .outOfFuel := by
  induction n with
  | zero => exact ⟨rfl, rfl⟩
  | succ n ih =>
    constructor
    · show ref_resolve cycleRefs n "B" = .error .outOfFuel
      exact ih.2
    · show ref_resolve cycleRefs n "A" = .error .outOfFuel
      exact ih.1

/-- C3: on a repository whose ref files form the symbolic cycle A to B to A,
ref_resolve never produces a result at any recursion depth: the python
source (which has no visited set or depth bound) recurses forever instead
of failing with CycleDetected as the specification requires. -/
theorem c3_ref_cycle_diverges (n : Nat) :
    ref_resolve cycleRefs n "A" = .error .outOfFuel :=
  (ref_resolve_cycle_both n).1

/-- C1 counterexample: a single tree entry with mode of five ASCII octal
digits, a NUL-free path, and a digest of forty lowercase hex characters
whose first digit is zero does not round-trip: hex() drops the leading
zero, and the reparsed entry carries a 39-character digest. -/
theorem c1_tree_roundtrip_counterexample :
    (tree_serialize [ceLeaf]).map (fun bs => tree_parse (bs.length + 1) bs)
        = some (some [ceParsed])
      ∧ ceParsed ≠ ceLeaf
      ∧ ceLeaf.sha.length = 40
      ∧ ceLeaf.sha.data.all isLowerHex = true
      ∧ ceLeaf.mode.length = 5
      ∧ (0 : Nat) ∉ ceLeaf.path := by
  refine ⟨by decide, by decide, by decide, by decide, by decide, by decide⟩

/-- C4 counterexample: after libwyag object_write has stored a blob, a
second object_write of the identical content finds the object already
present at its content address and still rewrites the file, so the write
log records two writes of the same path. -/
theorem c4_idempotence_counterexample :
    fsHasFile (object_write hConst "blob" [97] true emptyFS).2
        (objDirOf (hConst (fullData "blob" [97])))
        (objFileOf (hConst (fullData "blob" [97]))) = true
      ∧ (object_write hConst "blob" [97] true
          (object_write hConst "blob" [97] true emptyFS).2).2.writeLog.length = 2 := by
  refine ⟨by decide, by decide⟩

/-- C5 counterexample: pygit read_object performs no validation of the type
tag: an object stored under the tag weird, which is outside the four
declared types, is read back successfully with its payload instead of
failing with UnknownObjectType. -/
theorem c5_unknown_type_counterexample :
    read_object (hash_object hConst [104] "weird" true emptyFS).2
        "aaaaaaaaaaaaaaaaaaaaaaaaaaaaaaaaaaaaaaaa" = .ok ("weird", [104])
      ∧ "weird" ≠ "blob" ∧ "weird" ≠ "tree" ∧ "weird" ≠ "commit" ∧ "weird" ≠ "tag" := by
  refine ⟨by decide, by decide, by decide, by decide, by decide⟩

/-- C6 counterexample: with two stored objects matching prefix ab, the error
is a ValueError whose message reports the count and the prefix but names
neither candidate; and with zero matches in a subdirectory that was never
created, the failure is the FileNotFoundError of os.listdir, not the
ValueError NotFound of the source. -/
theorem c6_disambiguation_counterexample :
    find_object fsAB "ab" = .error (.valueErr "multiple objects (2) with prefix ab")
      ∧ ¬ List.IsInfix "cccccccccccccccccccccccccccccccccccccc".data
          "multiple objects (2) with prefix ab".data
      ∧ ¬ List.IsInfix "dddddddddddddddddddddddddddddddddddddd".data
          "multiple objects (2) with prefix ab".data
      ∧ find_object fsAB "zz11" = .error (.fileNotFound ".git/objects/zz")
      ∧ PgErr.fileNotFound ".git/objects/zz" ≠ PgErr.valueErr "object zz11 not found" := by
  refine ⟨by decide, by decide, by decide, by decide, by decide⟩

/-- C7 counterexample: a KVLM mapping with no interleaved duplicate keys
whose only field holds a one-element list value does not round-trip: the
serialization emits a single header line, and parsing returns the value as
a scalar rather than a singleton list. -/
theorem c7_kvlm_roundtrip_counterexample :
    (kvlm_serialize kCE).map (fun out => kvlm_parse (out.length + 1) out)
        = some (some kCEParsed)
      ∧ kCEParsed ≠ kCE := by
  refine ⟨by decide, by decide⟩

/-! ### Characterisation of the python find model -/

theorem findAt_intro : ∀ (l : List Nat) (b s t : Nat), l[t]? = some b → s ≤ t →
    (∀ i, s ≤ i → i < t → l[i]? ≠ some b) → findAt l b s = some t := by
  intro l
  induction l with
  | nil => intro b s t ht; simp at ht
  | cons x xs ih =>
    intro b s t ht hs hmin
    cases s with
    | zero =>
      by_cases hx : x = b
      · cases t with
        | zero => simp [findAt, hx]
        | succ t2 =>
          exact absurd (by simpa using hx) (hmin 0 (Nat.zero_le 0) (Nat.succ_pos t2))
      · cases t with
        | zero => simp at ht; exact absurd ht.symm (fun hh => hx hh.symm)
        | succ t2 =>
          have h2 : findAt xs b 0 = some t2 := by
            refine ih b 0 t2 (by simpa using ht) (Nat.zero_le t2) ?_
            intro i _ hi
            have := hmin (i + 1) (Nat.zero_le (i + 1)) (by omega)
            simpa using this
          simp [findAt, hx, h2]
    | succ s2 =>
      cases t with
      | zero => omega
      | succ t2 =>
        have h2 : findAt xs b s2 = some t2 := by
          refine ih b s2 t2 (by simpa using ht) (by omega) ?_
          intro i hi1 hi2
          have := hmin (i + 1) (by omega) (by omega)
          simpa using this
        simp [findAt, h2]

theorem findAt_elim : ∀ (l : List Nat) (b s t : Nat), findAt l b s = some t →
    s ≤ t ∧ l[t]? = some b := by
  intro l
  induction l with
  | nil => intro b s t h; simp [findAt] at h
  | cons x xs ih =>
    intro b s t h
    cases s with
    | zero =>
      by_cases hx : x = b
      · simp [findAt, hx] at h
        subst h
        simp [hx]
      · simp [findAt, hx] at h
        obtain ⟨t2, h2, rfl⟩ := h
        have := ih b 0 t2 h2
        exact ⟨Nat.zero_le _, by simpa using this.2⟩
    | succ s2 =>
      simp [findAt] at h
      obtain ⟨t2, h2, rfl⟩ := h
      have := ih b s2 t2 h2
      exact ⟨by omega, by simpa using this.2⟩

theorem findAt_min : ∀ (l : List Nat) (b s t : Nat), findAt l b s = some t →
    ∀ i, s ≤ i → i < t → l[i]? ≠ some b := by
  intro l
  induction l with
  | nil => intro b s t h; simp [findAt] at h
  | cons x xs ih =>
    intro b s t h i hi1 hi2
    cases s with
    | zero =>
      by_cases hx : x = b
      · simp [findAt, hx] at h; omega
      · simp [findAt, hx] at h
        obtain ⟨t2, h2, rfl⟩ := h
        cases i with
        | zero => simpa using hx
        | succ i2 =>
          have := ih b 0 t2 h2 i2 (Nat.zero_le i2) (by omega)
          simpa using this
    | succ s2 =>
      simp [findAt] at h
      obtain ⟨t2, h2, rfl⟩ := h
      cases i with
      | zero => omega
      | succ i2 =>
        have := ih b s2 t2 h2 i2 (by omega) (by omega)
        simpa using this

theorem findAt_none_elim : ∀ (l : List Nat) (b s : Nat), findAt l b s = none →
    ∀ i, s ≤ i → l[i]? ≠ some b := by
  intro l
  induction l with
  | nil => intro b s _ i _; simp
  | cons x xs ih =>
    intro b s h i hi
    cases s with
    | zero =>
      by_cases hx : x = b
      · simp [findAt, hx] at h
      · simp [findAt, hx] at h
        cases i with
        | zero => simpa using hx
        | succ i2 => have := ih b 0 h i2 (Nat.zero_le i2); simpa using this
    | succ s2 =>
      simp [findAt] at h
      cases i with
      | zero => omega
      | succ i2 => have := ih b s2 h i2 (by omega); simpa using this

/-! ### Slicing and casting helpers -/

theorem pyBound_natCast (len : Nat) (a : Nat) : pyBound len (a : Int) = min a len := by
  simp [pyBound]

theorem pySlice_natCast (l : List Nat) (a b : Nat) :
    pySlice l (a : Int) (b : Int) = (l.take b).drop a := by
  unfold pySlice
  rw [pyBound_natCast, pyBound_natCast]
  rcases Nat.le_total b l.length with hb | hb
  · rw [Nat.min_eq_left hb]
    rcases Nat.le_total a l.length with ha | ha
    · rw [Nat.min_eq_left ha]
    · rw [Nat.min_eq_right ha]
      rw [List.drop_eq_nil_of_le (by simp only [List.length_take]; omega),
        List.drop_eq_nil_of_le (by simp only [List.length_take]; omega)]
  · rw [Nat.min_eq_right hb, List.take_of_length_le hb, List.take_length]
    rcases Nat.le_total a l.length with ha | ha
    · rw [Nat.min_eq_left ha]
    · rw [Nat.min_eq_right ha]
      rw [List.drop_eq_nil_of_le (by omega), List.drop_eq_nil_of_le (by omega)]

theorem pySliceFrom_natCast (l : List Nat) (a : Nat) :
    pySliceFrom l (a : Int) = l.drop a := by
  unfold pySliceFrom
  rw [pyBound_natCast]
  rcases Nat.le_total a l.length with ha | ha
  · rw [Nat.min_eq_left ha]
  · rw [Nat.min_eq_right ha, List.drop_length, List.drop_eq_nil_of_le ha]

theorem pySlice_drop_take (l : List Nat) (a n : Nat) :
    pySlice l (a : Int) ((a + n : Nat) : Int) = (l.drop a).take n := by
  rw [pySlice_natCast]
  rw [List.drop_take]
  congr 1
  omega

theorem bFind_intro (l : List Nat) (b s t : Nat) (h1 : l[t]? = some b) (h2 : s ≤ t)
    (h3 : ∀ i, s ≤ i → i < t → l[i]? ≠ some b) : bFind l b s = (t : Int) := by
  unfold bFind
  rw [findAt_intro l b s t h1 h2 h3]

theorem pyFind_natCast (l : List Nat) (b : Nat) (s : Nat) (hs : s ≤ l.length) :
    pyFind l b (s : Int) = bFind l b s := by
  unfold pyFind
  rw [pyBound_natCast, Nat.min_eq_left hs]

/-! ### Continuation encoding round-trip -/

theorem encodeCont_ne_ten (c : Nat) (w : List Nat) (h : c ≠ 10) :
    encodeCont (c :: w) = c :: encodeCont w := by
  simp [encodeCont, h]

theorem encodeCont_ten (w : List Nat) : encodeCont (10 :: w) = 10 :: 32 :: encodeCont w := by
  simp [encodeCont]

theorem encodeCont_eq_nil (w : List Nat) (h : encodeCont w = []) : w = [] := by
  cases w with
  | nil => rfl
  | cons d r =>
    by_cases hd : d = 10
    · subst hd; rw [encodeCont_ten] at h; cases h
    · rw [encodeCont_ne_ten d r hd] at h; cases h

theorem decodeCont_encodeCont (w : List Nat) : decodeCont (encodeCont w) = w := by
  induction w with
  | nil => rfl
  | cons c w' ih =>
    by_cases hc : c = 10
    · subst hc
      rw [encodeCont_ten]
      cases h2 : encodeCont w' with
      | nil =>
        rw [encodeCont_eq_nil w' h2]
        simp [decodeCont]
      | cons d rest =>
        rw [show decodeCont (10 :: 32 :: d :: rest) = 10 :: decodeCont (d :: rest) by
          simp [decodeCont]]
        rw [← h2, ih]
    · rw [encodeCont_ne_ten c w' hc]
      cases h2 : encodeCont w' with
      | nil =>
        rw [encodeCont_eq_nil w' h2]
        simp [decodeCont]
      | cons d rest =>
        have : decodeCont (c :: d :: rest) = c :: decodeCont (d :: rest) := by
          have hnot : ¬(c = 10 ∧ d = 32) := fun hh => hc hh.1
          simp [decodeCont, hnot]
        rw [this, ← h2, ih]

/-! ### Decimal and hexadecimal rendering round-trips -/

theorem digitsGo_eq_digits (b : Nat) (hb : 2 ≤ b) :
    ∀ fuel n, n ≤ fuel → digitsGo b fuel n = Nat.digits b n := by
  intro fuel
  induction fuel with
  | zero =>
    intro n hn
    have : n = 0 := by omega
    subst this
    simp [digitsGo]
  | succ f ih =>
    intro n hn
    cases n with
    | zero => simp [digitsGo]
    | succ m =>
      obtain ⟨b2, rfl⟩ : ∃ b2, b = b2 + 2 := ⟨b - 2, by omega⟩
      rw [show digitsGo (b2 + 2) (f + 1) (m + 1)
          = (m + 1) % (b2 + 2) :: digitsGo (b2 + 2) f ((m + 1) / (b2 + 2)) from rfl]
      rw [Nat.digits_add_two_add_one]
      rw [ih ((m + 1) / (b2 + 2)) (by
        have hlt : (m + 1) / (b2 + 2) < m + 1 :=
          Nat.div_lt_self (by omega) (by omega)
        omega)]

theorem digitsOf_eq_digits (b n : Nat) (hb : 2 ≤ b) : digitsOf b n = Nat.digits b n :=
  digitsGo_eq_digits b hb n n (Nat.le_refl n)

theorem ofDigits_singleton_nat (b x : Nat) : Nat.ofDigits b [x] = x := by
  rw [Nat.ofDigits_cons, Nat.ofDigits_nil]
  ring

theorem foldl_digits_eq_ofDigits (base : Nat) (f : Char → Nat) :
    ∀ (l : List Char) (acc : Nat),
      l.foldl (fun a c => base * a + f c) acc
        = acc * base ^ l.length + Nat.ofDigits base ((l.map f).reverse) := by
  intro l
  induction l with
  | nil => intro acc; simp [Nat.ofDigits_nil]
  | cons c cs ih =>
    intro acc
    rw [List.foldl_cons, ih (base * acc + f c)]
    have hofd : Nat.ofDigits base (((c :: cs).map f).reverse)
        = Nat.ofDigits base ((cs.map f).reverse) + base ^ cs.length * f c := by
      rw [List.map_cons, List.reverse_cons]
      rw [show (Nat.ofDigits base ((cs.map f).reverse ++ [f c]) : Nat)
          = Nat.ofDigits base ((cs.map f).reverse)
            + base ^ ((cs.map f).reverse).length * Nat.ofDigits base [f c] by
        exact_mod_cast Nat.ofDigits_append]
      rw [ofDigits_singleton_nat, List.length_reverse, List.length_map]
    rw [hofd, List.length_cons]
    ring

theorem ofDigits_lt_base_pow (b : Nat) (hb : 2 ≤ b) :
    ∀ (L : List Nat), (∀ d ∈ L, d < b) → Nat.ofDigits b L < b ^ L.length := by
  intro L
  induction L with
  | nil => intro _; simp [Nat.ofDigits]
  | cons d L ih =>
    intro h
    have h1 : d < b := h d (List.mem_cons_self d L)
    have h2 : Nat.ofDigits b L < b ^ L.length := ih (fun x hx => h x (List.mem_cons_of_mem d hx))
    have : (Nat.ofDigits b (d :: L) : Nat) = d + b * Nat.ofDigits b L :=
      Nat.ofDigits_cons
    rw [this, List.length_cons, pow_succ]
    have hb0 : b * (Nat.ofDigits b L + 1) ≤ b * b ^ L.length := by
      exact Nat.mul_le_mul_left b h2
    calc d + b * Nat.ofDigits b L < b * (Nat.ofDigits b L + 1) := by
          rw [Nat.mul_add, Nat.mul_one]; omega
      _ ≤ b * b ^ L.length := hb0
      _ = b ^ L.length * b := Nat.mul_comm _ _

theorem isDecDigit_char_facts (c : Char) (h : isDecDigit c = true) :
    48 ≤ c.toNat ∧ c.toNat ≤ 57 := by
  simpa [isDecDigit] using h

theorem isLowerHex_char_facts (c : Char) (h : isLowerHex c = true) :
    (48 ≤ c.toNat ∧ c.toNat ≤ 57) ∨ (97 ≤ c.toNat ∧ c.toNat ≤ 102) := by
  simpa [isLowerHex] using h

theorem char_eq_of_toNat (c d : Char) (h : c.toNat = d.toNat) : c = d := by
  have h1 := Char.ofNat_toNat c
  have h2 := Char.ofNat_toNat d
  rw [← h1, ← h2, h]

theorem digitChar_decVal (c : Char) (h : isDecDigit c = true) :
    Nat.digitChar (decVal c) = c := by
  obtain ⟨h1, h2⟩ := isDecDigit_char_facts c h
  apply char_eq_of_toNat
  rw [show decVal c = c.toNat - 48 from rfl]
  interval_cases hcn : c.toNat <;> decide

theorem digitChar_hexVal (c : Char) (h : isLowerHex c = true) :
    Nat.digitChar (hexVal c) = c := by
  have hfacts := isLowerHex_char_facts c h
  apply char_eq_of_toNat
  rw [show hexVal c = if c.toNat ≤ 57 then c.toNat - 48
      else if c.toNat ≤ 70 then c.toNat - 55 else c.toNat - 87 from rfl]
  rcases hfacts with ⟨h1, h2⟩ | ⟨h1, h2⟩
  · interval_cases hcn : c.toNat <;> decide
  · interval_cases hcn : c.toNat <;> decide

theorem decVal_digitChar (d : Nat) (h : d < 10) : decVal (Nat.digitChar d) = d := by
  interval_cases d <;> decide

theorem isDecDigit_digitChar (d : Nat) (h : d < 10) : isDecDigit (Nat.digitChar d) = true := by
  interval_cases d <;> decide

theorem hexVal_digitChar (d : Nat) (h : d < 16) : hexVal (Nat.digitChar d) = d := by
  interval_cases d <;> decide

theorem isLowerHex_digitChar (d : Nat) (h : d < 16) : isLowerHex (Nat.digitChar d) = true := by
  interval_cases d <;> decide

theorem dropWhile_eq_self_of (p : Char → Bool) (l : List Char)
    (h : ∀ c ∈ l, p c = false) : l.dropWhile p = l := by
  cases l with
  | nil => rfl
  | cons c cs =>
    rw [List.dropWhile_cons]
    rw [h c (List.mem_cons_self c cs)]
    simp

theorem natToDec_all_digits (n : Nat) :
    ∀ c ∈ (natToDec n).data, isDecDigit c = true := by
  intro c hc
  unfold natToDec at hc
  by_cases hn : n = 0
  · rw [if_pos hn] at hc
    simp at hc
    subst hc
    decide
  · rw [if_neg hn] at hc
    simp only [List.mem_reverse, List.mem_map] at hc
    obtain ⟨d, hd, rfl⟩ := hc
    rw [digitsOf_eq_digits 10 n (by omega)] at hd
    exact isDecDigit_digitChar d (Nat.digits_lt_base (by omega) hd)

theorem natToDec_ne_nil (n : Nat) : (natToDec n).data ≠ [] := by
  unfold natToDec
  by_cases hn : n = 0
  · rw [if_pos hn]; simp
  · rw [if_neg hn]
    simp only [ne_eq, List.reverse_eq_nil_iff, List.map_eq_nil_iff]
    rw [digitsOf_eq_digits 10 n (by omega)]
    exact Nat.digits_ne_nil_iff_ne_zero.mpr hn

theorem isDecDigit_not_ws (c : Char) (h : isDecDigit c = true) : isPyWs c = false := by
  obtain ⟨h1, _⟩ := isDecDigit_char_facts c h
  unfold isPyWs
  by_cases e1 : c = ' '
  · subst e1; exact absurd h1 (by decide)
  · by_cases e2 : c = '\t'
    · subst e2; exact absurd h1 (by decide)
    · by_cases e3 : c = '\n'
      · subst e3; exact absurd h1 (by decide)
      · by_cases e4 : c = '\r'
        · subst e4; exact absurd h1 (by decide)
        · by_cases e5 : c = '\x0b'
          · subst e5; exact absurd h1 (by decide)
          · by_cases e6 : c = '\x0c'
            · subst e6; exact absurd h1 (by decide)
            · simp [e1, e2, e3, e4, e5, e6]

theorem pyIntDec_natToDec (n : Nat) : pyIntDec (natToDec n) = some n := by
  by_cases hn : n = 0
  · subst hn; decide
  · unfold pyIntDec
    have hall := natToDec_all_digits n
    have hnws : ∀ c ∈ (natToDec n).data, isPyWs c = false :=
      fun c hc => isDecDigit_not_ws c (hall c hc)
    have hd1 : (natToDec n).data.dropWhile isPyWs = (natToDec n).data :=
      dropWhile_eq_self_of _ _ hnws
    have hnws2 : ∀ c ∈ (natToDec n).data.reverse, isPyWs c = false :=
      fun c hc => hnws c (List.mem_reverse.mp hc)
    have hd2 : (natToDec n).data.reverse.dropWhile isPyWs = (natToDec n).data.reverse :=
      dropWhile_eq_self_of _ _ hnws2
    simp only [hd1, hd2, List.reverse_reverse]
    rw [if_pos ⟨natToDec_ne_nil n, List.all_eq_true.mpr hall⟩]
    congr 1
    rw [foldl_digits_eq_ofDigits 10 decVal]
    simp only [Nat.zero_mul, Nat.zero_add]
    unfold natToDec
    rw [if_neg hn]
    simp only [List.map_reverse, List.reverse_reverse, List.map_map]
    rw [digitsOf_eq_digits 10 n (by omega)]
    have hmapid : List.map (decVal ∘ Nat.digitChar) (Nat.digits 10 n)
        = List.map id (Nat.digits 10 n) :=
      List.map_congr_left (fun d hd => decVal_digitChar d (Nat.digits_lt_base (by omega) hd))
    rw [hmapid, List.map_id]
    exact Nat.ofDigits_digits 10 n

theorem hexVal_lt_16 (c : Char) (h : isLowerHex c = true) : hexVal c < 16 := by
  have hfacts := isLowerHex_char_facts c h
  rw [show hexVal c = if c.toNat ≤ 57 then c.toNat - 48
      else if c.toNat ≤ 70 then c.toNat - 55 else c.toNat - 87 from rfl]
  rcases hfacts with ⟨h1, h2⟩ | ⟨h1, h2⟩
  · rw [if_pos (by omega)]; omega
  · rw [if_neg (by omega), if_neg (by omega)]; omega

theorem isLowerHex_isHexDigit (c : Char) (h : isLowerHex c = true) : isHexDigit c = true := by
  have hfacts := isLowerHex_char_facts c h
  simp only [isHexDigit, decide_eq_true_eq]
  rcases hfacts with ⟨h1, h2⟩ | ⟨h1, h2⟩
  · exact Or.inl ⟨h1, h2⟩
  · exact Or.inr (Or.inr ⟨h1, h2⟩)

theorem pyIntHex_eval (s : String) (h1 : s.data ≠ [])
    (h2 : ∀ c ∈ s.data, isLowerHex c = true) :
    pyIntHex s = some (Nat.ofDigits 16 ((s.data.map hexVal).reverse)) := by
  unfold pyIntHex
  rw [if_pos ⟨h1, List.all_eq_true.mpr (fun c hc => isLowerHex_isHexDigit c (h2 c hc))⟩]
  congr 1
  rw [foldl_digits_eq_ofDigits 16 hexVal]
  simp

theorem hexFold_lt (s : String) (h2 : ∀ c ∈ s.data, isLowerHex c = true) :
    Nat.ofDigits 16 ((s.data.map hexVal).reverse) < 16 ^ s.data.length := by
  have := ofDigits_lt_base_pow 16 (by omega) ((s.data.map hexVal).reverse) (by
    intro d hd
    rw [List.mem_reverse, List.mem_map] at hd
    obtain ⟨c, hc, rfl⟩ := hd
    exact hexVal_lt_16 c (h2 c hc))
  simpa using this

theorem hexVal_ne_zero (c : Char) (h : isLowerHex c = true) (hc : c ≠ '0') :
    hexVal c ≠ 0 := by
  have hz : ('0').toNat = 48 := rfl
  rcases isLowerHex_char_facts c h with ⟨h1, h2⟩ | ⟨h1, h2⟩ <;>
    rw [show hexVal c = if c.toNat ≤ 57 then c.toNat - 48
      else if c.toNat ≤ 70 then c.toNat - 55 else c.toNat - 87 from rfl]
  · intro hv
    rw [if_pos (by omega)] at hv
    exact hc (char_eq_of_toNat c '0' (by omega))
  · intro hv
    rw [if_neg (by omega), if_neg (by omega)] at hv
    omega

theorem natToHexMin_roundtrip (s : String) (h1 : s.data ≠ [])
    (h2 : ∀ c ∈ s.data, isLowerHex c = true) (h3 : s.data.head? ≠ some '0') :
    natToHexMin (Nat.ofDigits 16 ((s.data.map hexVal).reverse)) = s := by
  obtain ⟨sdata⟩ := s
  cases sdata with
  | nil => exact absurd rfl h1
  | cons c0 cs =>
    simp only [String.data] at h1 h2 h3 ⊢
    have hc0 : c0 ≠ '0' := by
      intro hc
      rw [hc] at h3
      simp at h3
    have hL : ∀ d ∈ ((c0 :: cs).map hexVal).reverse, d < 16 := by
      intro d hd
      rw [List.mem_reverse, List.mem_map] at hd
      obtain ⟨c, hc, rfl⟩ := hd
      exact hexVal_lt_16 c (h2 c hc)
    have hLne : ((c0 :: cs).map hexVal).reverse ≠ [] := by simp
    have hlast : ∀ h : ((c0 :: cs).map hexVal).reverse ≠ [],
        (((c0 :: cs).map hexVal).reverse).getLast h ≠ 0 := by
      intro h
      rw [List.getLast_reverse h]
      simp only [List.map_cons, List.head_cons]
      exact hexVal_ne_zero c0 (h2 c0 (List.mem_cons_self c0 cs)) hc0
    have hdig : Nat.digits 16 (Nat.ofDigits 16 (((c0 :: cs).map hexVal).reverse))
        = ((c0 :: cs).map hexVal).reverse :=
      Nat.digits_ofDigits 16 (by omega) _ hL hlast
    have hne : Nat.ofDigits 16 (((c0 :: cs).map hexVal).reverse) ≠ 0 := by
      intro hz
      rw [hz] at hdig
      simp only [Nat.digits_zero] at hdig
      exact hLne hdig.symm
    unfold natToHexMin
    rw [if_neg hne]
    rw [digitsOf_eq_digits 16 _ (by omega), hdig]
    rw [List.map_reverse, List.reverse_reverse, List.map_map]
    have hmapid : List.map (Nat.digitChar ∘ hexVal) (c0 :: cs) = List.map id (c0 :: cs) :=
      List.map_congr_left (fun c hc => digitChar_hexVal c (h2 c hc))
    rw [hmapid, List.map_id]

theorem bytesToNat_append_single (xs : List Nat) (b : Nat) :
    bytesToNat (xs ++ [b]) = 256 * bytesToNat xs + b := by
  unfold bytesToNat
  rw [List.foldl_append]
  rfl

theorem toBytesBE_length (k : Nat) : ∀ n, (toBytesBE k n).length = k := by
  induction k with
  | zero => intro n; rfl
  | succ k2 ih =>
    intro n
    rw [show toBytesBE (k2 + 1) n = toBytesBE k2 (n / 256) ++ [n % 256] from rfl]
    rw [List.length_append, ih]
    simp

theorem bytesToNat_toBytesBE (k : Nat) : ∀ n, n < 256 ^ k →
    bytesToNat (toBytesBE k n) = n := by
  induction k with
  | zero =>
    intro n h
    simp only [pow_zero, Nat.lt_one_iff] at h
    subst h
    rfl
  | succ k2 ih =>
    intro n h
    rw [show toBytesBE (k2 + 1) n = toBytesBE k2 (n / 256) ++ [n % 256] from rfl]
    rw [bytesToNat_append_single]
    rw [ih (n / 256) (by
      have hp : 256 ^ (k2 + 1) = 256 ^ k2 * 256 := pow_succ 256 k2
      rw [hp] at h
      exact Nat.div_lt_of_lt_mul (by omega))]
    omega

/-! ### Generic byte-list positioning helpers -/

theorem getElem?_of_drop (raw bs : List Nat) (pos : Nat) (h : raw.drop pos = bs)
    (j : Nat) : raw[pos + j]? = bs[j]? := by
  rw [← h, List.getElem?_drop]

theorem getElem?_append_left_of (l1 l2 : List Nat) (j : Nat) (h : j < l1.length) :
    (l1 ++ l2)[j]? = l1[j]? := by
  rw [List.getElem?_append]
  rw [if_pos h]

theorem getElem?_append_skip (l1 l2 : List Nat) (j : Nat) :
    (l1 ++ l2)[l1.length + j]? = l2[j]? := by
  rw [List.getElem?_append_right (by omega)]
  congr 1
  omega

theorem mem_of_getElem? (l : List Nat) (j x : Nat) (h : l[j]? = some x) : x ∈ l := by
  have := List.getElem?_mem h
  exact this

theorem drop_of_drop (raw bs : List Nat) (pos : Nat) (h : raw.drop pos = bs) (k : Nat) :
    raw.drop (pos + k) = bs.drop k := by
  rw [← h, ← List.drop_drop]

theorem take_append_exact (l1 l2 : List Nat) : (l1 ++ l2).take l1.length = l1 :=
  List.take_left l1 l2

theorem drop_append_exact (l1 l2 : List Nat) : (l1 ++ l2).drop l1.length = l2 :=
  List.drop_left l1 l2

theorem getElem?_head_of_drop (raw : List Nat) (q b : Nat) (tail : List Nat)
    (h : raw.drop q = b :: tail) : raw[q]? = some b := by
  have := getElem?_of_drop raw (b :: tail) q h 0
  simpa using this

/-- Round-trip worker for the tree codec: parsing continues through a
serialized suffix and returns exactly the serialized entries. -/
theorem tree_roundtrip_go :
    ∀ (items : List TreeLeaf) (bs raw : List Nat) (pos fuel : Nat),
      (∀ leaf ∈ items,
        (leaf.mode.length = 5 ∨ leaf.mode.length = 6) ∧ (32 : Nat) ∉ leaf.mode
          ∧ (0 : Nat) ∉ leaf.path ∧ leaf.sha.data ≠ []
          ∧ (∀ c ∈ leaf.sha.data, isLowerHex c = true)
          ∧ leaf.sha.data.head? ≠ some '0' ∧ leaf.sha.data.length ≤ 40) →
      tree_serialize items = some bs →
      raw.drop pos = bs →
      pos ≤ raw.length →
      fuel ≥ raw.length - pos + 1 →
      tree_parse_go fuel raw pos = some items := by
  intro items
  induction items with
  | nil =>
    intro bs raw pos fuel _ hser hdrop hpos hfuel
    have hbs : bs = [] := by
      simpa [tree_serialize] using hser.symm
    subst hbs
    have hlen : raw.length ≤ pos := by
      have := congrArg List.length hdrop
      simp [List.length_drop] at this
      omega
    obtain ⟨f, rfl⟩ : ∃ f, fuel = f + 1 := ⟨fuel - 1, by omega⟩
    unfold tree_parse_go
    rw [if_neg (by omega)]
  | cons leaf rest ih =>
    intro bs raw pos fuel hwf hser hdrop hpos hfuel
    obtain ⟨hmode, hmode32, hpath0, hshane, hshahex, hshahead, hshalen⟩ :=
      hwf leaf (List.mem_cons_self leaf rest)
    have hwfrest := fun l hl => hwf l (List.mem_cons_of_mem leaf hl)
    have hhex := pyIntHex_eval leaf.sha hshane hshahex
    have hvlt : Nat.ofDigits 16 ((leaf.sha.data.map hexVal).reverse) < 256 ^ 20 := by
      have h1 := hexFold_lt leaf.sha hshahex
      have h2 : (16 : Nat) ^ leaf.sha.data.length ≤ 16 ^ 40 :=
        Nat.pow_le_pow_right (by omega) hshalen
      have h3 : (16 : Nat) ^ 40 = 256 ^ 20 := by norm_num
      omega
    have hbytes : pyToBytesBE 20 (Nat.ofDigits 16 ((leaf.sha.data.map hexVal).reverse))
        = some (toBytesBE 20 (Nat.ofDigits 16 ((leaf.sha.data.map hexVal).reverse))) := by
      unfold pyToBytesBE
      rw [if_pos hvlt]
    unfold tree_serialize at hser
    simp only [hhex, hbytes] at hser
    cases hrest : tree_serialize rest with
    | none => rw [hrest] at hser; simp at hser
    | some r =>
      rw [hrest] at hser
      simp only [Option.map_some'] at hser
      have hbs := hser.symm
      injection hbs with hbs
      set v := Nat.ofDigits 16 ((leaf.sha.data.map hexVal).reverse) with hvdef
      set SB := toBytesBE 20 v with hSBdef
      have hSBlen : SB.length = 20 := toBytesBE_length 20 v
      set A := leaf.mode with hAdef
      set P := leaf.path with hPdef
      set X := P ++ 0 :: (SB ++ r) with hXdef
      have hbs2 : bs = A ++ 32 :: X := by
        rw [hbs, hXdef]
        simp [List.cons_append, List.append_assoc]
      have hbslen : bs.length = A.length + 1 + P.length + 1 + 20 + r.length := by
        rw [hbs2, hXdef]
        simp [List.length_append, hSBlen]
        omega
      have hrawlen : raw.length = pos + bs.length := by
        have := congrArg List.length hdrop
        simp [List.length_drop] at this
        omega
      -- the space terminating the mode
      have hdropA : bs.drop A.length = 32 :: X := by
        rw [hbs2]
        exact drop_append_exact A (32 :: X)
      have hdropA1 : bs.drop (A.length + 1) = X := by
        rw [← List.drop_drop, hdropA]
        rfl
      have hdropP : bs.drop (A.length + 1 + P.length) = 0 :: (SB ++ r) := by
        have h2 := drop_of_drop bs X (A.length + 1) hdropA1 P.length
        rw [hXdef] at h2
        rw [show A.length + 1 + P.length = A.length + 1 + P.length from rfl, h2]
        exact drop_append_exact P (0 :: (SB ++ r))
      have hdropSB : bs.drop (A.length + 1 + P.length + 1) = SB ++ r := by
        rw [← List.drop_drop, hdropP]
        rfl
      have hx : bFind raw 32 pos = ((pos + A.length : Nat) : Int) := by
        apply bFind_intro
        · rw [getElem?_of_drop raw bs pos hdrop A.length]
          exact getElem?_head_of_drop bs A.length 32 X hdropA
        · omega
        · intro i hi1 hi2
          have hj : i = pos + (i - pos) := by omega
          rw [hj, getElem?_of_drop raw bs pos hdrop (i - pos)]
          rw [hbs2, getElem?_append_left_of A (32 :: X) (i - pos) (by omega)]
          intro hcontra
          exact hmode32 (mem_of_getElem? A (i - pos) 32 hcontra)
      have hy : bFind raw 0 (pos + A.length) = ((pos + A.length + 1 + P.length : Nat) : Int) := by
        apply bFind_intro
        · rw [show pos + A.length + 1 + P.length = pos + (A.length + 1 + P.length) by omega,
            getElem?_of_drop raw bs pos hdrop (A.length + 1 + P.length)]
          exact getElem?_head_of_drop bs (A.length + 1 + P.length) 0 (SB ++ r) hdropP
        · omega
        · intro i hi1 hi2
          have hj : i = pos + (i - pos) := by omega
          rw [hj, getElem?_of_drop raw bs pos hdrop (i - pos)]
          by_cases hsep : i = pos + A.length
          · have : i - pos = A.length := by omega
            rw [this]
            rw [getElem?_head_of_drop bs A.length 32 X hdropA]
            intro hcontra
            injection hcontra with hcontra
            omega
          · have hj2 : i - pos = A.length + 1 + (i - pos - A.length - 1) := by omega
            rw [hj2, show bs[A.length + 1 + (i - pos - A.length - 1)]?
                = X[i - pos - A.length - 1]? from by
              rw [← hdropA1, List.getElem?_drop]]
            rw [hXdef, getElem?_append_left_of P (0 :: (SB ++ r)) _ (by omega)]
            intro hcontra
            exact hpath0 (mem_of_getElem? P _ 0 hcontra)
      have hslice1 : pySlice raw (pos : Int) ((pos + A.length : Nat) : Int) = A := by
        rw [pySlice_drop_take raw pos A.length, hdrop, hbs2, take_append_exact]
      have hslice2 : pySlice raw (((pos + A.length : Nat) : Int) + 1)
          ((pos + A.length + 1 + P.length : Nat) : Int) = P := by
        rw [show ((pos + A.length : Nat) : Int) + 1 = ((pos + A.length + 1 : Nat) : Int) by
          push_cast; ring]
        rw [pySlice_drop_take raw (pos + A.length + 1) P.length]
        rw [show pos + A.length + 1 = pos + (A.length + 1) by omega,
          drop_of_drop raw bs pos hdrop (A.length + 1), hdropA1, hXdef, take_append_exact]
      have hslice3 : pySlice raw (((pos + A.length + 1 + P.length : Nat) : Int) + 1)
          (((pos + A.length + 1 + P.length : Nat) : Int) + 21) = SB := by
        rw [show ((pos + A.length + 1 + P.length : Nat) : Int) + 1
            = ((pos + A.length + 1 + P.length + 1 : Nat) : Int) by push_cast; ring]
        rw [show ((pos + A.length + 1 + P.length : Nat) : Int) + 21
            = ((pos + A.length + 1 + P.length + 1 + 20 : Nat) : Int) by push_cast; ring]
        rw [pySlice_drop_take raw (pos + A.length + 1 + P.length + 1) 20]
        rw [show pos + A.length + 1 + P.length + 1 = pos + (A.length + 1 + P.length + 1) by omega,
          drop_of_drop raw bs pos hdrop (A.length + 1 + P.length + 1), hdropSB]
        rw [← hSBlen, take_append_exact]
      have hone : tree_parse_one raw pos
          = some (pos + (A.length + 1 + P.length + 21), ⟨A, P, leaf.sha⟩) := by
        simp only [tree_parse_one]
        rw [hx]
        rw [if_pos (by
          have hmA : A.length = 5 ∨ A.length = 6 := by rw [hAdef]; exact hmode
          rcases hmA with hm | hm
          · left; rw [hm]; push_cast; ring
          · right; rw [hm]; push_cast; ring)]
        rw [pyFind_natCast raw 0 (pos + A.length) (by omega), hy]
        rw [hslice1, hslice2, hslice3]
        rw [hSBdef, bytesToNat_toBytesBE 20 v hvlt, hvdef]
        rw [natToHexMin_roundtrip leaf.sha hshane hshahex hshahead]
        rw [show ((pos + A.length + 1 + P.length : Nat) : Int) + 21
            = ((pos + (A.length + 1 + P.length + 21) : Nat) : Int) by push_cast; ring]
        rw [Int.toNat_natCast]
      obtain ⟨f, rfl⟩ : ∃ f, fuel = f + 1 := ⟨fuel - 1, by omega⟩
      unfold tree_parse_go
      rw [if_pos (by omega : pos < raw.length)]
      simp only [hone]
      rw [ih r raw (pos + (A.length + 1 + P.length + 21)) f hwfrest hrest
        (by
          rw [drop_of_drop raw bs pos hdrop (A.length + 1 + P.length + 21)]
          rw [show A.length + 1 + P.length + 21 = A.length + 1 + P.length + 1 + 20 by omega]
          rw [← List.drop_drop, hdropSB, ← hSBlen, drop_append_exact])
        (by omega)
        (by omega)]
      simp only [Option.map_some']

/-- C1 amended: tree entries whose mode is five or six space-free bytes,
whose path is NUL-free, and whose digest is forty lowercase hex characters
with a nonzero leading digit round-trip exactly through tree_serialize and
tree_parse, for every sufficient fuel. (The claim as frozen also admits
leading-zero digests, which hex() collapses; see the counterexample.) -/
theorem c1_tree_roundtrip_amended :
    ∀ (items : List TreeLeaf) (bs : List Nat) (fuel : Nat),
      (∀ leaf ∈ items,
        (leaf.mode.length = 5 ∨ leaf.mode.length = 6) ∧ (32 : Nat) ∉ leaf.mode
          ∧ (0 : Nat) ∉ leaf.path ∧ leaf.sha.length = 40
          ∧ (∀ c ∈ leaf.sha.data, isLowerHex c = true)
          ∧ leaf.sha.data.head? ≠ some '0') →
      tree_serialize items = some bs →
      fuel ≥ bs.length + 1 →
      tree_parse fuel bs = some items := by
  intro items bs fuel hwf hser hfuel
  apply tree_roundtrip_go items bs bs 0 fuel
  · intro leaf hl
    obtain ⟨h1, h2, h3, h4, h5, h6⟩ := hwf leaf hl
    have hlen : leaf.sha.data.length = 40 := h4
    refine ⟨h1, h2, h3, ?_, h5, h6, by omega⟩
    intro hnil
    rw [hnil] at hlen
    simp at hlen
  · exact hser
  · rfl
  · omega
  · omega

/-- C1 witness: a concrete entry with a nonzero leading hex digit
round-trips, evaluated on its explicit serialization. -/
theorem c1_tree_roundtrip_witness :
    okLeaf.sha.length = 40
      ∧ tree_serialize [okLeaf]
          = some ([52, 48, 48, 48, 48, 32, 97, 32, 98, 0, 16] ++ List.replicate 19 170)
      ∧ tree_parse 31 ([52, 48, 48, 48, 48, 32, 97, 32, 98, 0, 16] ++ List.replicate 19 170)
          = some [okLeaf] :=
  ⟨by decide, by decide,
   c1_tree_roundtrip_amended [okLeaf]
     ([52, 48, 48, 48, 48, 32, 97, 32, 98, 0, 16] ++ List.replicate 19 170) 31
     (by decide) (by decide) (by decide)⟩

/-! ### Idempotence of the two write paths -/

theorem setKey_any_self (k : String × String) (v : List Nat) :
    ∀ l : List ((String × String) × List Nat),
      (setKey k v l).any (fun e => e.1 = k) = true := by
  intro l
  induction l with
  | nil => simp [setKey]
  | cons e es ih =>
    by_cases he : e.1 = k
    · simp [setKey, he]
    · simp only [setKey, if_neg he, List.any_cons]
      rw [ih]
      simp

theorem setKey_setKey (k : String × String) (v : List Nat) :
    ∀ l : List ((String × String) × List Nat),
      setKey k v (setKey k v l) = setKey k v l := by
  intro l
  induction l with
  | nil => simp [setKey]
  | cons e es ih =>
    by_cases he : e.1 = k
    · simp [setKey, he]
    · simp only [setKey, if_neg he]
      rw [ih]

theorem fsWrite_hasFile (fs : FS) (d f : String) (c : List Nat) :
    fsHasFile (fsWrite fs d f c) d f = true := by
  unfold fsHasFile fsWrite
  exact setKey_any_self (d, f) c fs.files

theorem fsWrite_dirs_contains (fs : FS) (d f : String) (c : List Nat) :
    (fsWrite fs d f c).dirs.contains d = true := by
  unfold fsWrite
  by_cases hc : fs.dirs.contains d = true
  · simp only [hc, if_pos rfl]
    exact hc
  · simp only [List.contains_eq_any_beq] at hc ⊢
    simp at hc
    rw [if_neg (by simpa using hc)]
    simp

theorem fsWrite_dirs_def (fs : FS) (d f : String) (c : List Nat) :
    (fsWrite fs d f c).dirs = if fs.dirs.contains d then fs.dirs else d :: fs.dirs := rfl

theorem hash_object_exists_eq (h : List Nat → String) (data : List Nat) (t : String)
    (fs : FS) (hex : fsHasFile fs (objDirOf (h (fullData t data)))
      (objFileOf (h (fullData t data))) = true) :
    hash_object h data t true fs = (h (fullData t data), fs) := by
  simp [hash_object, hex]

theorem hash_object_absent_eq (h : List Nat → String) (data : List Nat) (t : String)
    (fs : FS) (hex : fsHasFile fs (objDirOf (h (fullData t data)))
      (objFileOf (h (fullData t data))) = false) :
    hash_object h data t true fs
      = (h (fullData t data),
         fsWrite fs (objDirOf (h (fullData t data))) (objFileOf (h (fullData t data)))
           (zlib_compress (fullData t data))) := by
  simp [hash_object, hex]

theorem object_write_eq (h : List Nat → String) (t : String) (data : List Nat) (fs : FS) :
    object_write h t data true fs
      = (h (strToBytes t ++ 32 :: strToBytes (natToDec data.length) ++ 0 :: data),
         fsWrite fs
           (objDirOf (h (strToBytes t ++ 32 :: strToBytes (natToDec data.length) ++ 0 :: data)))
           (objFileOf (h (strToBytes t ++ 32 :: strToBytes (natToDec data.length) ++ 0 :: data)))
           (zlib_compress (strToBytes t ++ 32 :: strToBytes (natToDec data.length)
             ++ 0 :: data))) := by
  simp [object_write]

/-- C4 amended: calling the write path twice with identical content returns
the same digest both times and leaves the stored bytes unchanged. pygit
hash_object additionally skips the second file write entirely (its state,
write log included, is untouched), while libwyag object_write re-executes
the write: its file table and directory set are unchanged only because the
rewritten bytes are identical; the rewrite itself is visible in the write
log, as the counterexample shows. -/
theorem c4_write_idempotent_amended :
    ∀ (h : List Nat → String) (t : String) (data : List Nat) (fs : FS),
      ((hash_object h data t true ((hash_object h data t true fs).2)).1
          = (hash_object h data t true fs).1
        ∧ (hash_object h data t true ((hash_object h data t true fs).2)).2
          = (hash_object h data t true fs).2)
      ∧ ((object_write h t data true ((object_write h t data true fs).2)).1
          = (object_write h t data true fs).1
        ∧ (object_write h t data true ((object_write h t data true fs).2)).2.files
          = (object_write h t data true fs).2.files
        ∧ (object_write h t data true ((object_write h t data true fs).2)).2.dirs
          = (object_write h t data true fs).2.dirs) := by
  intro h t data fs
  constructor
  · by_cases hex : fsHasFile fs (objDirOf (h (fullData t data)))
        (objFileOf (h (fullData t data))) = true
    · rw [hash_object_exists_eq h data t fs hex]
      rw [hash_object_exists_eq h data t fs hex]
      exact ⟨rfl, rfl⟩
    · rw [hash_object_absent_eq h data t fs (by simpa using hex)]
      rw [hash_object_exists_eq h data t _ (fsWrite_hasFile fs _ _ _)]
      exact ⟨rfl, rfl⟩
  · rw [object_write_eq, object_write_eq]
    refine ⟨rfl, ?_, ?_⟩
    · exact setKey_setKey _ _ fs.files
    · rw [fsWrite_dirs_def, if_pos (fsWrite_dirs_contains fs _ _ _)]

/-! ### Header strings: encoding, decoding, splitting -/

theorem strToBytes_append (a b : String) :
    strToBytes (a ++ b) = strToBytes a ++ strToBytes b := by
  unfold strToBytes
  rw [String.data_append, List.map_append]

theorem pyDecodeAscii_strToBytes (s : String) (h : ∀ c ∈ s.data, c.toNat < 128) :
    pyDecodeAscii (strToBytes s) = some s := by
  unfold pyDecodeAscii strToBytes
  rw [if_pos (by
    rw [List.all_eq_true]
    intro b hb
    rw [List.mem_map] at hb
    obtain ⟨c, hc, rfl⟩ := hb
    simpa using h c hc)]
  congr 1
  rw [List.map_map]
  have : List.map (Char.ofNat ∘ Char.toNat) s.data = List.map id s.data :=
    List.map_congr_left (fun c _ => Char.ofNat_toNat c)
  rw [this, List.map_id]

theorem splitWsGo_word : ∀ (w rest acc : List Char),
    (∀ c ∈ w, isPyWs c = false) →
    splitWsGo (w ++ rest) acc = splitWsGo rest (w.reverse ++ acc) := by
  intro w
  induction w with
  | nil => intro rest acc _; simp
  | cons c w2 ih =>
    intro rest acc hw
    rw [List.cons_append]
    rw [show splitWsGo (c :: (w2 ++ rest)) acc
        = if isPyWs c then
            (if acc = [] then splitWsGo (w2 ++ rest) []
             else acc.reverse :: splitWsGo (w2 ++ rest) [])
          else splitWsGo (w2 ++ rest) (c :: acc) from rfl]
    rw [hw c (List.mem_cons_self c w2)]
    simp only [Bool.false_eq_true, if_false]
    rw [ih rest (c :: acc) (fun d hd => hw d (List.mem_cons_of_mem c hd))]
    congr 1
    simp

theorem splitWsGo_ws_head (b : List Char) (acc : List Char) (hacc : acc ≠ []) :
    splitWsGo (' ' :: b) acc = acc.reverse :: splitWsGo b [] := by
  simp only [splitWsGo]
  rw [show isPyWs ' ' = true from rfl]
  rw [if_pos rfl, if_neg hacc]

theorem splitWsGo_single_word (b : List Char) (hb : b ≠ [])
    (hb2 : ∀ c ∈ b, isPyWs c = false) : splitWsGo b [] = [b] := by
  have h := splitWsGo_word b [] [] hb2
  rw [List.append_nil, List.append_nil] at h
  rw [h]
  simp only [splitWsGo]
  rw [if_neg (by simpa using hb)]
  simp

theorem pySplitWs_two_words (a b : String) (ha : a.data ≠ []) (hb : b.data ≠ [])
    (ha2 : ∀ c ∈ a.data, isPyWs c = false) (hb2 : ∀ c ∈ b.data, isPyWs c = false) :
    pySplitWs (a ++ " " ++ b) = [a, b] := by
  unfold pySplitWs
  rw [String.data_append, String.data_append]
  rw [show (" " : String).data = [' '] from rfl]
  rw [List.append_assoc]
  rw [show [' '] ++ b.data = ' ' :: b.data from rfl]
  rw [splitWsGo_word a.data (' ' :: b.data) [] ha2]
  rw [List.append_nil]
  rw [splitWsGo_ws_head b.data a.data.reverse (by simpa using ha)]
  rw [splitWsGo_single_word b.data hb hb2]
  rw [List.reverse_reverse]
  rfl

/-! ### Store lookups after a write -/

theorem setKey_absent (k : String × String) (v : List Nat) :
    ∀ l : List ((String × String) × List Nat),
      (∀ e ∈ l, e.1 ≠ k) → setKey k v l = l ++ [(k, v)] := by
  intro l
  induction l with
  | nil => intro _; rfl
  | cons e es ih =>
    intro h
    unfold setKey
    rw [if_neg (h e (List.mem_cons_self e es))]
    rw [ih (fun e2 he2 => h e2 (List.mem_cons_of_mem e he2))]
    rfl

theorem find?_append_key (d f : String) (v : List Nat)
    (l : List ((String × String) × List Nat)) (h : ∀ e ∈ l, e.1 ≠ (d, f)) :
    (l ++ [((d, f), v)]).find? (fun e => e.1 = (d, f)) = some ((d, f), v) := by
  induction l with
  | nil => simp [List.find?]
  | cons e es ih =>
    rw [List.cons_append, List.find?_cons]
    rw [show (decide (e.1 = (d, f))) = false by
      simp only [decide_eq_false_iff_not]
      exact h e (List.mem_cons_self e es)]
    exact ih (fun e2 he2 => h e2 (List.mem_cons_of_mem e he2))

theorem fsHasFile_false_all (fs : FS) (d f : String)
    (h : fsHasFile fs d f = false) : ∀ e ∈ fs.files, e.1 ≠ (d, f) := by
  intro e he
  unfold fsHasFile at h
  rw [List.any_eq_false] at h
  have := h e he
  simpa using this

theorem string_ext_data (a b : String) (h : a.data = b.data) : a = b := by
  cases a
  cases b
  exact congrArg String.mk h

theorem fsWrite_files_def (fs : FS) (d f : String) (c : List Nat) :
    (fsWrite fs d f c).files = setKey (d, f) c fs.files := rfl

/-- After writing an absent object into a store whose file names all have
38 characters, looking the full 40-character digest up succeeds and finds
exactly the written file. -/
theorem find_object_after_write (fs : FS) (sha : String) (bytes : List Nat)
    (hlen : sha.length = 40)
    (hinv : ∀ e ∈ fs.files, e.1.2.length = 38)
    (habs : fsHasFile fs (objDirOf sha) (objFileOf sha) = false) :
    find_object (fsWrite fs (objDirOf sha) (objFileOf sha) bytes) sha
      = .ok (objDirOf sha, objFileOf sha) := by
  have hdlen : sha.data.length = 40 := hlen
  simp only [find_object]
  rw [if_neg (by omega : ¬sha.length < 2)]
  have hdir : (".git/objects/" ++ String.mk (sha.data.take 2)) = objDirOf sha := rfl
  rw [hdir]
  have hlist : listdir (fsWrite fs (objDirOf sha) (objFileOf sha) bytes) (objDirOf sha)
      = some (((fs.files.filter (fun e => e.1.1 = objDirOf sha)).map (fun e => e.1.2))
          ++ [objFileOf sha]) := by
    unfold listdir
    rw [if_pos (fsWrite_dirs_contains fs _ _ _)]
    rw [fsWrite_files_def]
    rw [setKey_absent _ _ _ (fsHasFile_false_all fs _ _ habs)]
    rw [List.filter_append, List.map_append]
    congr 1
    simp
  have hfilter : (((fs.files.filter (fun e => e.1.1 = objDirOf sha)).map (fun e => e.1.2))
        ++ [objFileOf sha]).filter
          (fun n => (String.mk (sha.data.drop 2)).data.isPrefixOf n.data)
      = [objFileOf sha] := by
    rw [List.filter_append]
    rw [List.filter_eq_nil_iff.mpr (by
      intro m hm
      rw [List.mem_map] at hm
      obtain ⟨e, he, rfl⟩ := hm
      rw [List.mem_filter] at he
      obtain ⟨he1, he2⟩ := he
      intro hpre
      have hpre2 : sha.data.drop 2 <+: (e.1.2).data := by simpa using hpre
      have hmlen : (e.1.2).data.length = 38 := hinv e he1
      have heq : sha.data.drop 2 = (e.1.2).data :=
        List.IsPrefix.eq_of_length hpre2 (by rw [List.length_drop]; omega)
      have heq2 : objFileOf sha = e.1.2 :=
        string_ext_data _ _ heq
      apply fsHasFile_false_all fs _ _ habs e he1
      have : e.1.1 = objDirOf sha := by simpa using he2
      rw [Prod.ext_iff]
      exact ⟨this, heq2.symm⟩)]
    rw [List.nil_append]
    rw [show (([objFileOf sha].filter
        (fun n => (String.mk (sha.data.drop 2)).data.isPrefixOf n.data)))
      = [objFileOf sha] from by
      rw [List.filter_cons]
      rw [show ((String.mk (sha.data.drop 2)).data.isPrefixOf (objFileOf sha).data) = true from
        List.isPrefixOf_iff_prefix.mpr (List.prefix_refl _)]
      rfl]
  simp only [hlist, hfilter]

/-- Reading back an object just written by pygit hash_object returns its
declared type and byte-identical payload, for any type string made of
nonzero non-whitespace ASCII bytes. -/
theorem read_after_write (h : List Nat → String) (t : String) (data : List Nat) (fs : FS)
    (ht1 : t.data ≠ [])
    (ht2 : ∀ c ∈ t.data, isPyWs c = false)
    (ht3 : ∀ c ∈ t.data, c.toNat ≠ 0)
    (ht4 : ∀ c ∈ t.data, c.toNat < 128)
    (hlen : (h (fullData t data)).length = 40)
    (hinv : ∀ e ∈ fs.files, e.1.2.length = 38)
    (habs : fsHasFile fs (objDirOf (h (fullData t data)))
      (objFileOf (h (fullData t data))) = false) :
    read_object (hash_object h data t true fs).2 (h (fullData t data)) = .ok (t, data) := by
  rw [hash_object_absent_eq h data t fs habs]
  simp only []
  have hfind := find_object_after_write fs (h (fullData t data))
    (zlib_compress (fullData t data)) hlen hinv habs
  have hread : fsReadFile
      (fsWrite fs (objDirOf (h (fullData t data))) (objFileOf (h (fullData t data)))
        (zlib_compress (fullData t data)))
      (objDirOf (h (fullData t data))) (objFileOf (h (fullData t data)))
      = some (zlib_compress (fullData t data)) := by
    unfold fsReadFile
    rw [fsWrite_files_def]
    rw [setKey_absent _ _ _ (fsHasFile_false_all fs _ _ habs)]
    rw [find?_append_key _ _ _ _ (fsHasFile_false_all fs _ _ habs)]
    rfl
  have hheader0 : ∀ b ∈ strToBytes (t ++ " " ++ natToDec data.length), b ≠ 0 := by
    intro b hb
    unfold strToBytes at hb
    rw [List.mem_map] at hb
    obtain ⟨c, hc, rfl⟩ := hb
    rw [String.data_append, String.data_append] at hc
    rw [show (" " : String).data = [' '] from rfl] at hc
    rcases List.mem_append.mp hc with hc1 | hc2
    · rcases List.mem_append.mp hc1 with hc3 | hc4
      · exact ht3 c hc3
      · rw [List.mem_singleton] at hc4
        subst hc4
        decide
    · have := isDecDigit_char_facts c (natToDec_all_digits data.length c hc2)
      omega
  have hfull : fullData t data
      = strToBytes (t ++ " " ++ natToDec data.length) ++ 0 :: data := rfl
  have hnul : findAt (fullData t data) 0 0
      = some (strToBytes (t ++ " " ++ natToDec data.length)).length := by
    apply findAt_intro
    · rw [hfull]
      exact getElem?_head_of_drop _ _ 0 data (drop_append_exact _ _)
    · omega
    · intro i _ hi
      rw [hfull, getElem?_append_left_of _ _ i hi]
      intro hcontra
      exact hheader0 0 (mem_of_getElem? _ i 0 hcontra) rfl
  have htake : (fullData t data).take
      (strToBytes (t ++ " " ++ natToDec data.length)).length
      = strToBytes (t ++ " " ++ natToDec data.length) := by
    rw [hfull]
    exact take_append_exact _ _
  have hdecode := pyDecodeAscii_strToBytes (t ++ " " ++ natToDec data.length) (by
    intro c hc
    rw [String.data_append, String.data_append] at hc
    rw [show (" " : String).data = [' '] from rfl] at hc
    rcases List.mem_append.mp hc with hc1 | hc2
    · rcases List.mem_append.mp hc1 with hc3 | hc4
      · exact ht4 c hc3
      · rw [List.mem_singleton] at hc4
        subst hc4
        decide
    · have := isDecDigit_char_facts c (natToDec_all_digits data.length c hc2)
      omega)
  have hsplit := pySplitWs_two_words t (natToDec data.length) ht1
    (natToDec_ne_nil data.length) ht2
    (fun c hc => isDecDigit_not_ws c (natToDec_all_digits data.length c hc))
  have hdropdata : (fullData t data).drop
      ((strToBytes (t ++ " " ++ natToDec data.length)).length + 1) = data := by
    rw [hfull, ← List.drop_drop, drop_append_exact]
    rfl
  unfold read_object
  simp only [hfind, hread]
  rw [show zlib_decompress (zlib_compress (fullData t data)) = fullData t data from rfl]
  simp only [hnul, htake, hdecode, hsplit, pyIntDec_natToDec, hdropdata]
  rw [if_neg (by omega)]

/-- C2: for every declared object type among blob, tree, commit and tag and
every byte payload, writing the object with pygit hash_object and reading
it back by its full digest returns the same type string and a
byte-identical payload. The digest function is abstract (only its
40-character output length is used), the store may hold any other objects
(the invariant that stored file names have 38 characters holds for every
store the source builds), and the target address is not yet taken. -/
theorem c2_object_roundtrip :
    ∀ (h : List Nat → String) (t : String) (data : List Nat) (fs : FS),
      (t = "blob" ∨ t = "tree" ∨ t = "commit" ∨ t = "tag") →
      (h (fullData t data)).length = 40 →
      (∀ e ∈ fs.files, e.1.2.length = 38) →
      fsHasFile fs (objDirOf (h (fullData t data)))
        (objFileOf (h (fullData t data))) = false →
      read_object (hash_object h data t true fs).2 (h (fullData t data))
        = .ok (t, data) := by
  intro h t data fs ht hlen hinv habs
  apply read_after_write h t data fs ?_ ?_ ?_ ?_ hlen hinv habs
  · rcases ht with rfl | rfl | rfl | rfl <;> decide
  · rcases ht with rfl | rfl | rfl | rfl <;> decide
  · rcases ht with rfl | rfl | rfl | rfl <;> decide
  · rcases ht with rfl | rfl | rfl | rfl <;> decide

/-- C2 witness: a blob with payload bytes 104 105 written into the empty
store under the constant 40-character digest reads back unchanged. -/
theorem c2_object_roundtrip_witness :
    hConst (fullData "blob" [104, 105]) = "aaaaaaaaaaaaaaaaaaaaaaaaaaaaaaaaaaaaaaaa"
      ∧ read_object (hash_object hConst [104, 105] "blob" true emptyFS).2
          (hConst (fullData "blob" [104, 105])) = .ok ("blob", [104, 105]) :=
  ⟨rfl,
   c2_object_roundtrip hConst "blob" [104, 105] emptyFS (Or.inl rfl) (by decide)
     (by intro e he; simp [emptyFS] at he) (by decide)⟩

theorem pyIntDec_cons_ws (c : Char) (hc : isPyWs c = true) (s : String) :
    pyIntDec (String.mk (c :: s.data)) = pyIntDec s := by
  unfold pyIntDec
  rw [show (String.mk (c :: s.data)).data = c :: s.data from rfl]
  rw [List.dropWhile_cons, if_pos hc]

theorem pyIntDec_space_natToDec (n : Nat) : pyIntDec (" " ++ natToDec n) = some n := by
  have hs : (" " ++ natToDec n) = String.mk (' ' :: (natToDec n).data) :=
    string_ext_data _ _ (by rw [String.data_append]; rfl)
  rw [hs, pyIntDec_cons_ws ' ' rfl (natToDec n)]
  exact pyIntDec_natToDec n

/-- libwyag object_read on a well-formed header whose type tag lies outside
the four known tags is a hard UnknownObjectType error. -/
theorem object_read_unknown_tag (fmt data : List Nat) (sha : String)
    (h32 : (32 : Nat) ∉ fmt) (h0 : (0 : Nat) ∉ fmt)
    (hc : fmt ≠ strToBytes "commit") (htr : fmt ≠ strToBytes "tree")
    (hta : fmt ≠ strToBytes "tag") (hb : fmt ≠ strToBytes "blob") :
    object_read
        (zlib_compress (fmt ++ 32 :: strToBytes (natToDec data.length) ++ 0 :: data)) sha
      = .error (.unknownType fmt sha) := by
  set D := strToBytes (natToDec data.length) with hD
  set raw := fmt ++ 32 :: D ++ 0 :: data with hraw
  have hraw2 : raw = fmt ++ (32 :: (D ++ 0 :: data)) := by
    rw [hraw]
    simp [List.append_assoc]
  have hD0 : ∀ b ∈ D, b ≠ 0 := by
    intro b hbm
    rw [hD] at hbm
    unfold strToBytes at hbm
    rw [List.mem_map] at hbm
    obtain ⟨ch, hch, rfl⟩ := hbm
    have := isDecDigit_char_facts ch (natToDec_all_digits data.length ch hch)
    omega
  have hdrop1 : raw.drop fmt.length = 32 :: (D ++ 0 :: data) := by
    rw [hraw2]
    exact drop_append_exact fmt _
  have hdrop1b : raw.drop (fmt.length + 1) = D ++ 0 :: data := by
    have := drop_of_drop raw (32 :: (D ++ 0 :: data)) fmt.length hdrop1 1
    rw [this]
    rfl
  have hdrop2 : raw.drop (fmt.length + (1 + D.length)) = 0 :: data := by
    have h1 := drop_of_drop raw (32 :: (D ++ 0 :: data)) fmt.length hdrop1 (1 + D.length)
    rw [h1]
    rw [show (32 :: (D ++ 0 :: data)).drop (1 + D.length)
        = (D ++ 0 :: data).drop D.length from by
      rw [show 1 + D.length = D.length + 1 by omega]
      rfl]
    exact drop_append_exact D _
  have hlenraw : raw.length = fmt.length + 1 + D.length + 1 + data.length := by
    rw [hraw2]
    simp [List.length_append]
    omega
  have hx : bFind raw 32 0 = (fmt.length : Int) := by
    apply bFind_intro
    · exact getElem?_head_of_drop raw fmt.length 32 (D ++ 0 :: data) hdrop1
    · omega
    · intro i _ hi
      rw [hraw2, getElem?_append_left_of fmt _ i hi]
      intro hcontra
      exact h32 (mem_of_getElem? fmt i 32 hcontra)
  have hy : bFind raw 0 fmt.length = ((fmt.length + (1 + D.length) : Nat) : Int) := by
    apply bFind_intro
    · exact getElem?_head_of_drop raw _ 0 data hdrop2
    · omega
    · intro i hi1 hi2
      by_cases hsep : i = fmt.length
      · subst hsep
        rw [getElem?_head_of_drop raw fmt.length 32 (D ++ 0 :: data) hdrop1]
        intro hcontra
        injection hcontra with hcontra
        omega
      · have hj : i = (fmt.length + 1) + (i - fmt.length - 1) := by omega
        rw [hj, getElem?_of_drop raw (D ++ 0 :: data) (fmt.length + 1) hdrop1b]
        rw [getElem?_append_left_of D _ _ (by omega)]
        intro hcontra
        exact hD0 0 (mem_of_getElem? D _ 0 hcontra) rfl
  have hslice0 : pySlice raw 0 ((fmt.length : Nat) : Int) = fmt := by
    rw [show (0 : Int) = ((0 : Nat) : Int) from rfl]
    rw [pySlice_natCast]
    rw [List.drop_zero, hraw2, take_append_exact]
  have hslice1 : pySlice raw ((fmt.length : Nat) : Int)
      ((fmt.length + (1 + D.length) : Nat) : Int) = 32 :: D := by
    rw [pySlice_drop_take raw fmt.length (1 + D.length), hdrop1]
    rw [show (32 :: (D ++ 0 :: data)).take (1 + D.length)
        = 32 :: ((D ++ 0 :: data).take D.length) from by
      rw [show 1 + D.length = D.length + 1 by omega]
      rfl]
    rw [take_append_exact]
  have hdec : pyDecodeAscii (32 :: D) = some (" " ++ natToDec data.length) := by
    rw [show (32 :: D) = strToBytes (" " ++ natToDec data.length) from by
      rw [strToBytes_append]
      rfl]
    apply pyDecodeAscii_strToBytes
    intro ch hch
    rw [String.data_append] at hch
    rcases List.mem_append.mp hch with hch1 | hch2
    · rw [show (" " : String).data = [' '] from rfl, List.mem_singleton] at hch1
      subst hch1
      decide
    · have := isDecDigit_char_facts ch (natToDec_all_digits data.length ch hch2)
      omega
  unfold object_read
  rw [show zlib_decompress (zlib_compress raw) = raw from rfl]
  simp only [hx, hslice0]
  rw [pyFind_natCast raw 0 fmt.length (by omega)]
  simp only [hy, hslice1, hdec, pyIntDec_space_natToDec]
  rw [if_neg (by
    rw [hlenraw]
    push_cast
    omega)]
  rw [if_neg hc, if_neg htr, if_neg hta, if_neg hb]

/-- C5 amended: libwyag object_read fails with UnknownObjectType on every
stored object whose decompressed header declares a type tag outside blob,
tree, commit and tag (first conjunct); pygit read_object, by contrast,
performs no validation of the tag and returns the payload under whatever
type string the header declares, for any type made of nonzero
non-whitespace ASCII bytes, recognized or not (second conjunct). -/
theorem c5_unknown_type_amended :
    (∀ (fmt data : List Nat) (sha : String),
        (32 : Nat) ∉ fmt → (0 : Nat) ∉ fmt →
        fmt ≠ strToBytes "commit" → fmt ≠ strToBytes "tree" →
        fmt ≠ strToBytes "tag" → fmt ≠ strToBytes "blob" →
        object_read
            (zlib_compress (fmt ++ 32 :: strToBytes (natToDec data.length) ++ 0 :: data)) sha
          = .error (.unknownType fmt sha))
    ∧ (∀ (h : List Nat → String) (t : String) (data : List Nat) (fs : FS),
        t.data ≠ [] → (∀ c ∈ t.data, isPyWs c = false) →
        (∀ c ∈ t.data, c.toNat ≠ 0) → (∀ c ∈ t.data, c.toNat < 128) →
        (h (fullData t data)).length = 40 →
        (∀ e ∈ fs.files, e.1.2.length = 38) →
        fsHasFile fs (objDirOf (h (fullData t data)))
          (objFileOf (h (fullData t data))) = false →
        read_object (hash_object h data t true fs).2 (h (fullData t data))
          = .ok (t, data)) :=
  ⟨fun fmt data sha h32 h0 hc htr hta hb =>
    object_read_unknown_tag fmt data sha h32 h0 hc htr hta hb,
   fun h t data fs ht1 ht2 ht3 ht4 hlen hinv habs =>
    read_after_write h t data fs ht1 ht2 ht3 ht4 hlen hinv habs⟩

/-- C5 witness: the unrecognized tag weird triggers the libwyag hard error,
while pygit reads the same payload back under the tag weird. -/
theorem c5_unknown_type_witness :
    object_read (zlib_compress (strToBytes "weird" ++ 32 ::
        strToBytes (natToDec ([104] : List Nat).length) ++ 0 :: [104])) "zz"
        = .error (.unknownType (strToBytes "weird") "zz")
      ∧ read_object (hash_object hConst [104] "weird" true emptyFS).2
          (hConst (fullData "weird" [104])) = .ok ("weird", [104]) :=
  ⟨c5_unknown_type_amended.1 (strToBytes "weird") [104] "zz" (by decide) (by decide)
     (by decide) (by decide) (by decide) (by decide),
   c5_unknown_type_amended.2 hConst "weird" [104] emptyFS (by decide) (by decide)
     (by decide) (by decide) (by decide) (by intro e he; simp [emptyFS] at he) (by decide)⟩

/-- C6 amended: pygit find_object rejects prefixes shorter than two
characters with the ValueError of the source; when the two-character
subdirectory was never created the failure is the uncaught
FileNotFoundError of os.listdir rather than the NotFound ValueError; given
the directory listing, zero matching names raise NotFound, exactly one
match succeeds with that object, and two or more matches raise a
ValueError whose message carries the number of candidates and the prefix,
not the candidate names. -/
theorem c6_disambiguation_amended :
    ∀ (fs : FS) (pfx : String),
      (pfx.length < 2 →
        find_object fs pfx = .error (.valueErr "hash prefix must be 2 or more characters"))
      ∧ (2 ≤ pfx.length → listdir fs (objDirOf pfx) = none →
          find_object fs pfx = .error (.fileNotFound (objDirOf pfx)))
      ∧ (∀ names, 2 ≤ pfx.length → listdir fs (objDirOf pfx) = some names →
          names.filter (fun n => (objFileOf pfx).data.isPrefixOf n.data) = [] →
          find_object fs pfx = .error (.valueErr ("object " ++ pfx ++ " not found")))
      ∧ (∀ names o, 2 ≤ pfx.length → listdir fs (objDirOf pfx) = some names →
          names.filter (fun n => (objFileOf pfx).data.isPrefixOf n.data) = [o] →
          find_object fs pfx = .ok (objDirOf pfx, o))
      ∧ (∀ names o1 o2 os, 2 ≤ pfx.length → listdir fs (objDirOf pfx) = some names →
          names.filter (fun n => (objFileOf pfx).data.isPrefixOf n.data) = o1 :: o2 :: os →
          find_object fs pfx = .error (.valueErr ("multiple objects ("
            ++ natToDec (o1 :: o2 :: os).length ++ ") with prefix " ++ pfx))) := by
  intro fs pfx
  refine ⟨?_, ?_, ?_, ?_, ?_⟩
  · intro hshort
    unfold find_object
    rw [if_pos hshort]
  · intro hlong hnone
    simp only [objDirOf] at hnone
    simp only [find_object]
    rw [if_neg (by omega)]
    simp only [hnone]
    rfl
  · intro names hlong hsome hmatch
    simp only [objDirOf] at hsome
    simp only [objFileOf] at hmatch
    simp only [find_object]
    rw [if_neg (by omega)]
    simp only [hsome, hmatch]
  · intro names o hlong hsome hmatch
    simp only [objDirOf] at hsome
    simp only [objFileOf] at hmatch
    simp only [find_object]
    rw [if_neg (by omega)]
    simp only [hsome, hmatch]
    rfl
  · intro names o1 o2 os hlong hsome hmatch
    simp only [objDirOf] at hsome
    simp only [objFileOf] at hmatch
    simp only [find_object]
    rw [if_neg (by omega)]
    simp only [hsome, hmatch]

/-- C6 witness: the five outcomes at concrete stores: a one-character
prefix, a missing subdirectory, zero matches, a unique match, and two
matches reported by count. -/
theorem c6_disambiguation_witness :
    find_object fsAB "a" = .error (.valueErr "hash prefix must be 2 or more characters")
      ∧ find_object fsAB "zz11" = .error (.fileNotFound ".git/objects/zz")
      ∧ find_object fsAB "abe" = .error (.valueErr "object abe not found")
      ∧ find_object fsAB "abc" = .ok (".git/objects/ab", "cccccccccccccccccccccccccccccccccccccc")
      ∧ find_object fsAB "ab" = .error (.valueErr "multiple objects (2) with prefix ab") :=
  ⟨(c6_disambiguation_amended fsAB "a").1 (by decide),
   (c6_disambiguation_amended fsAB "zz11").2.1 (by decide) (by decide),
   (c6_disambiguation_amended fsAB "abe").2.2.1
     ["cccccccccccccccccccccccccccccccccccccc", "dddddddddddddddddddddddddddddddddddddd"]
     (by decide) (by decide) (by decide),
   (c6_disambiguation_amended fsAB "abc").2.2.2.1
     ["cccccccccccccccccccccccccccccccccccccc", "dddddddddddddddddddddddddddddddddddddd"]
     "cccccccccccccccccccccccccccccccccccccc" (by decide) (by decide) (by decide),
   (c6_disambiguation_amended fsAB "ab").2.2.2.2
     ["cccccccccccccccccccccccccccccccccccccc", "dddddddddddddddddddddddddddddddddddddd"]
     "cccccccccccccccccccccccccccccccccccccc" "dddddddddddddddddddddddddddddddddddddd" []
     (by decide) (by decide) (by decide)⟩

/-- C8: pygit read_index accepts only byte strings whose trailing twenty
bytes equal the digest of everything before them (first conjunct: success
implies the checksum equation), and flipping any byte of a valid index
strictly inside the checksummed region while the digest of the prefix
changes (as any collision-free digest guarantees for a genuine flip) makes
the parse fail with ChecksumMismatch before anything else is examined
(second conjunct). -/
theorem c8_index_checksum :
    (∀ (h : List Nat → List Nat) (data : List Nat) (es : List PIndexEntry),
        read_index h data = .ok es →
        h (pySlice data 0 (-20)) = pySliceFrom data (-20))
    ∧ (∀ (h : List Nat → List Nat) (data : List Nat) (es : List PIndexEntry) (i b : Nat),
        read_index h data = .ok es →
        12 ≤ i → i < data.length - 20 →
        h (pySlice (data.set i b) 0 (-20)) ≠ h (pySlice data 0 (-20)) →
        read_index h (data.set i b) = .error .checksumMismatch) := by
  have hsuffix : ∀ (data : List Nat) (i b : Nat), i < data.length - 20 →
      pySliceFrom (data.set i b) (-20) = pySliceFrom data (-20) := by
    intro data i b hi
    unfold pySliceFrom pyBound
    rw [List.length_set]
    rw [if_pos (by omega : (-20 : Int) < 0)]
    exact List.drop_set_of_lt b data (by omega)
  have hpart1 : ∀ (h : List Nat → List Nat) (data : List Nat) (es : List PIndexEntry),
      read_index h data = .ok es →
      h (pySlice data 0 (-20)) = pySliceFrom data (-20) := by
    intro h data es hok
    unfold read_index at hok
    by_cases hck : h (pySlice data 0 (-20)) ≠ pySliceFrom data (-20)
    · rw [if_pos hck] at hok
      cases hok
    · push_neg at hck
      exact hck
  refine ⟨hpart1, ?_⟩
  intro h data es i b hok h12 hallow hdiff
  have heq := hpart1 h data es hok
  unfold read_index
  rw [if_pos (by
    rw [hsuffix data i b hallow, ← heq]
    exact hdiff)]

/-- C8 witness: a concrete valid one-entry index under the byte-sum digest
parses, its checksum equation holds by the first conjunct, and flipping
the path byte at offset 74 (inside the entry region) yields
ChecksumMismatch by the second conjunct. -/
theorem c8_index_checksum_witness :
    read_index hSum dataW = .ok [entW1]
      ∧ hSum (pySlice dataW 0 (-20)) = pySliceFrom dataW (-20)
      ∧ read_index hSum (dataW.set 74 98) = .error .checksumMismatch :=
  ⟨by decide,
   c8_index_checksum.1 hSum dataW [entW1] (by decide),
   c8_index_checksum.2 hSum dataW [entW1] 74 98 (by decide) (by decide) (by decide)
     (by decide)⟩

/-! ### Sorting model for python sorted on strings -/

theorem charsLe_total : ∀ a b : List Char, charsLe a b = true ∨ charsLe b a = true := by
  intro a
  induction a with
  | nil => intro b; left; rfl
  | cons x xs ih =>
    intro b
    cases b with
    | nil => right; rfl
    | cons y ys =>
      by_cases hlt : x.toNat < y.toNat
      · left; simp [charsLe, hlt]
      · by_cases heq : x.toNat = y.toNat
        · rcases ih ys with h | h
          · left; simp [charsLe, hlt, heq, h]
          · right; simp [charsLe, heq.symm, h, show ¬y.toNat < x.toNat by omega]
        · right; simp [charsLe, show y.toNat < x.toNat by omega]

theorem charsLe_trans : ∀ a b c : List Char,
    charsLe a b = true → charsLe b c = true → charsLe a c = true := by
  intro a
  induction a with
  | nil => intro b c _ _; rfl
  | cons x xs ih =>
    intro b c hab hbc
    cases b with
    | nil => simp [charsLe] at hab
    | cons y ys =>
      cases c with
      | nil => simp [charsLe] at hbc
      | cons z zs =>
        simp only [charsLe] at hab hbc ⊢
        by_cases h1 : x.toNat < y.toNat
        · by_cases h2 : y.toNat < z.toNat
          · rw [if_pos (by omega)]
          · rw [if_neg h2] at hbc
            by_cases h3 : y.toNat = z.toNat
            · rw [if_pos (by omega)]
            · rw [if_neg h3] at hbc
              cases hbc
        · rw [if_neg h1] at hab
          by_cases h4 : x.toNat = y.toNat
          · rw [if_pos h4] at hab
            by_cases h2 : y.toNat < z.toNat
            · rw [if_pos (by omega)]
            · rw [if_neg h2] at hbc
              by_cases h3 : y.toNat = z.toNat
              · rw [if_pos h3] at hbc
                rw [if_neg (by omega), if_pos (by omega)]
                exact ih ys zs hab hbc
              · rw [if_neg h3] at hbc
                cases hbc
          · rw [if_neg h4] at hab
            cases hab

theorem strLeB_total (a b : String) : strLeB a b = true ∨ strLeB b a = true :=
  charsLe_total a.data b.data

theorem strLeB_trans (a b c : String) (h1 : strLeB a b = true) (h2 : strLeB b c = true) :
    strLeB a c = true :=
  charsLe_trans a.data b.data c.data h1 h2

theorem insertSorted_mem (x y : String) : ∀ l : List String,
    (y ∈ insertSorted x l ↔ y = x ∨ y ∈ l) := by
  intro l
  induction l with
  | nil => simp [insertSorted]
  | cons z zs ih =>
    unfold insertSorted
    by_cases h : strLeB x z = true
    · rw [if_pos h]
      simp
    · rw [if_neg h]
      simp only [List.mem_cons, ih]
      tauto

theorem insertSorted_pairwise (x : String) : ∀ l : List String,
    l.Pairwise (fun a b => strLeB a b = true) →
    (insertSorted x l).Pairwise (fun a b => strLeB a b = true) := by
  intro l
  induction l with
  | nil => intro _; simp [insertSorted]
  | cons z zs ih =>
    intro hp
    rw [List.pairwise_cons] at hp
    obtain ⟨hz, hzs⟩ := hp
    unfold insertSorted
    by_cases h : strLeB x z = true
    · rw [if_pos h]
      rw [List.pairwise_cons]
      refine ⟨?_, by rw [List.pairwise_cons]; exact ⟨hz, hzs⟩⟩
      intro w hw
      rcases List.mem_cons.mp hw with rfl | hw2
      · exact h
      · exact strLeB_trans x z w h (hz w hw2)
    · rw [if_neg h]
      rw [List.pairwise_cons]
      refine ⟨?_, ih hzs⟩
      intro w hw
      rcases (insertSorted_mem x w zs).mp hw with hww | hw2
      · rw [hww]
        rcases strLeB_total x z with h2 | h2
        · exact absurd h2 h
        · exact h2
      · exact hz w hw2

theorem pySorted_mem (y : String) : ∀ l : List String, y ∈ pySorted l ↔ y ∈ l := by
  intro l
  induction l with
  | nil => simp [pySorted]
  | cons x xs ih =>
    unfold pySorted
    rw [insertSorted_mem, ih]
    simp

theorem pySorted_pairwise : ∀ l : List String,
    (pySorted l).Pairwise (fun a b => strLeB a b = true) := by
  intro l
  induction l with
  | nil => simp [pySorted]
  | cons x xs ih =>
    unfold pySorted
    exact insertSorted_pairwise x (pySorted xs) ih

theorem nodup_key_eq {γ α : Type} (f : γ → α) : ∀ (l : List γ) (x y : γ),
    (l.map f).Nodup → x ∈ l → y ∈ l → f x = f y → x = y := by
  intro l
  induction l with
  | nil => intro x y _ hx; cases hx
  | cons z zs ih =>
    intro x y hnd hx hy hf
    rw [List.map_cons, List.nodup_cons] at hnd
    obtain ⟨hz, hnd2⟩ := hnd
    rcases List.mem_cons.mp hx with rfl | hx2
    · rcases List.mem_cons.mp hy with rfl | hy2
      · rfl
      · exact absurd (hf ▸ List.mem_map_of_mem f hy2) hz
    · rcases List.mem_cons.mp hy with rfl | hy2
      · exact absurd (hf ▸ List.mem_map_of_mem f hx2) (by
          intro hmem
          exact hz (by simpa [hf] using List.mem_map_of_mem f hx2))
      · exact ih x y hnd2 hx2 hy2 hf

/-- C9: pygit get_status, with the file walk modelled as a list of
path-content pairs and read_index output as the entry list (both with
pairwise distinct paths, as sets and dictionaries keyed by path have),
returns exactly the three sets of the specification, each as a
lexicographically sorted sequence: changed holds the tracked paths whose
dry-run blob digest differs from the indexed digest rendered in hex, new
the untracked paths, deleted the indexed paths missing on disk. -/
theorem c9_status_sets :
    ∀ (h : List Nat → String) (files : List (String × List Nat))
      (entries : List PIndexEntry),
      (files.map Prod.fst).Nodup →
      (entries.map PIndexEntry.path).Nodup →
      (∀ p, p ∈ (get_status h files entries).1 ↔
          (p ∈ files.map Prod.fst ∧ p ∈ entries.map PIndexEntry.path ∧
            ∀ cp e, (p, cp) ∈ files → e ∈ entries → e.path = p →
              (hash_object h cp "blob" false emptyFS).1 ≠ bytesToHex e.sha1))
        ∧ (∀ p, p ∈ (get_status h files entries).2.1 ↔
            (p ∈ files.map Prod.fst ∧ p ∉ entries.map PIndexEntry.path))
        ∧ (∀ p, p ∈ (get_status h files entries).2.2 ↔
            (p ∈ entries.map PIndexEntry.path ∧ p ∉ files.map Prod.fst))
        ∧ (get_status h files entries).1.Pairwise (fun a b => strLeB a b = true)
        ∧ (get_status h files entries).2.1.Pairwise (fun a b => strLeB a b = true)
        ∧ (get_status h files entries).2.2.Pairwise (fun a b => strLeB a b = true) := by
  intro h files entries hnf hne
  refine ⟨?_, ?_, ?_, pySorted_pairwise _, pySorted_pairwise _, pySorted_pairwise _⟩
  · intro p
    show p ∈ pySorted ((files.map Prod.fst).filter _) ↔ _
    rw [pySorted_mem, List.mem_filter]
    constructor
    · rintro ⟨hp, hpred⟩
      rw [Bool.and_eq_true] at hpred
      obtain ⟨hc, hmatch⟩ := hpred
      have hep : p ∈ entries.map PIndexEntry.path := List.elem_iff.mp hc
      refine ⟨hp, hep, ?_⟩
      intro cp e hcp he hpath
      cases hf : files.find? (fun f => f.1 = p) with
      | none => rw [hf] at hmatch; cases he2 : entries.find? (fun e => e.path = p) <;>
          simp [he2] at hmatch
      | some f0 =>
        cases he2 : entries.find? (fun e => e.path = p) with
        | none => rw [hf, he2] at hmatch; simp at hmatch
        | some e0 =>
          rw [hf, he2] at hmatch
          have hne2 : (hash_object h f0.2 "blob" false emptyFS).1 ≠ bytesToHex e0.sha1 := by
            simpa using hmatch
          have hf0mem := List.mem_of_find?_eq_some hf
          have hf0p : f0.1 = p := by
            have := List.find?_some hf
            simpa using this
          have he0mem := List.mem_of_find?_eq_some he2
          have he0p : e0.path = p := by
            have := List.find?_some he2
            simpa using this
          have hfeq : f0 = (p, cp) :=
            nodup_key_eq Prod.fst files f0 (p, cp) hnf hf0mem hcp (by rw [hf0p])
          have heeq : e0 = e :=
            nodup_key_eq PIndexEntry.path entries e0 e hne he0mem he (by rw [he0p, hpath])
          rw [hfeq, heeq] at hne2
          exact hne2
    · rintro ⟨hp, hep, hdig⟩
      refine ⟨hp, ?_⟩
      rw [Bool.and_eq_true]
      refine ⟨List.elem_iff.mpr hep, ?_⟩
      cases hf : files.find? (fun f => f.1 = p) with
      | none =>
        obtain ⟨pr, hpr, hpr2⟩ := List.mem_map.mp hp
        have := List.find?_eq_none.mp hf pr hpr
        rw [hpr2] at this
        simp at this
      | some f0 =>
        cases he2 : entries.find? (fun e => e.path = p) with
        | none =>
          obtain ⟨e1, he1, he12⟩ := List.mem_map.mp hep
          have := List.find?_eq_none.mp he2 e1 he1
          rw [he12] at this
          simp at this
        | some e0 =>
          have hf0mem := List.mem_of_find?_eq_some hf
          have hf0p : f0.1 = p := by
            have := List.find?_some hf
            simpa using this
          have he0mem := List.mem_of_find?_eq_some he2
          have he0p : e0.path = p := by
            have := List.find?_some he2
            simpa using this
          have happ := hdig f0.2 e0 (by rw [← hf0p]; simpa using hf0mem) he0mem he0p
          show ((hash_object h f0.2 "blob" false emptyFS).1 != bytesToHex e0.sha1) = true
          simpa using happ
  · intro p
    show p ∈ pySorted ((files.map Prod.fst).filter _) ↔ _
    rw [pySorted_mem, List.mem_filter]
    constructor
    · rintro ⟨hp, hpred⟩
      refine ⟨hp, ?_⟩
      intro hmem
      rw [show (!(entries.map PIndexEntry.path).contains p) = true ↔
          (entries.map PIndexEntry.path).contains p = false by simp] at hpred
      have hcont : (entries.map PIndexEntry.path).contains p = true := List.elem_iff.mpr hmem
      rw [hcont] at hpred
      cases hpred
    · rintro ⟨hp, hnm⟩
      refine ⟨hp, ?_⟩
      rw [show (!(entries.map PIndexEntry.path).contains p) = true ↔
          (entries.map PIndexEntry.path).contains p = false by simp]
      cases hcon : (entries.map PIndexEntry.path).contains p
      · rfl
      · exact absurd (List.elem_iff.mp hcon) hnm
  · intro p
    show p ∈ pySorted ((entries.map PIndexEntry.path).filter _) ↔ _
    rw [pySorted_mem, List.mem_filter]
    constructor
    · rintro ⟨hp, hpred⟩
      refine ⟨hp, ?_⟩
      intro hmem
      rw [show (!(files.map Prod.fst).contains p) = true ↔
          (files.map Prod.fst).contains p = false by simp] at hpred
      have hcont : (files.map Prod.fst).contains p = true := List.elem_iff.mpr hmem
      rw [hcont] at hpred
      cases hpred
    · rintro ⟨hp, hnm⟩
      refine ⟨hp, ?_⟩
      rw [show (!(files.map Prod.fst).contains p) = true ↔
          (files.map Prod.fst).contains p = false by simp]
      cases hcon : (files.map Prod.fst).contains p
      · rfl
      · exact absurd (List.elem_iff.mp hcon) hnm

/-- C9 witness: the scenario of the specification: path a tracked and
changed, path b untracked, path c deleted; the status triple is the three
sorted singletons, and the changed-set characterisation holds at path a. -/
theorem c9_status_sets_witness :
    get_status hW filesW entriesW = (["a"], ["b"], ["c"])
      ∧ ("a" ∈ (get_status hW filesW entriesW).1 ↔
          ("a" ∈ filesW.map Prod.fst ∧ "a" ∈ entriesW.map PIndexEntry.path ∧
            ∀ cp e, ("a", cp) ∈ filesW → e ∈ entriesW → e.path = "a" →
              (hash_object hW cp "blob" false emptyFS).1 ≠ bytesToHex e.sha1)) :=
  ⟨by decide, (c9_status_sets hW filesW entriesW (by decide) (by decide)).1 "a"⟩

/-- C10: kvlm_serialize requires the message entry: a mapping without the
empty-key entry raises (KeyError) instead of producing output, and when
the scalar message entry is present the output is exactly the serialized
header fields, one blank line, and the message bytes verbatim at the very
end. -/
theorem c10_kvlm_serialize_message :
    ∀ d : Dct,
      (lookupV [] d = none → kvlm_serialize d = none)
      ∧ (∀ m out, lookupV [] d = some (.scalar m) → kvlm_serialize d = some out →
          out.length = (kvlmFields d).length + 1 + m.length
            ∧ out.drop (out.length - m.length) = m
            ∧ out[(kvlmFields d).length]? = some 10
            ∧ out.take (kvlmFields d).length = kvlmFields d) := by
  intro d
  constructor
  · intro hnone
    unfold kvlm_serialize
    rw [hnone]
  · intro m out hmsg hser
    unfold kvlm_serialize at hser
    rw [hmsg] at hser
    injection hser with hser
    subst hser
    have hlen : (kvlmFields d ++ 10 :: m).length = (kvlmFields d).length + 1 + m.length := by
      simp
      omega
    refine ⟨hlen, ?_, ?_, take_append_exact _ _⟩
    · rw [hlen]
      rw [show (kvlmFields d).length + 1 + m.length - m.length
          = (kvlmFields d).length + 1 by omega]
      rw [← List.drop_drop, drop_append_exact]
      rfl
    · exact getElem?_head_of_drop _ _ 10 m (drop_append_exact _ _)

/-- C10 witness: a mapping without the empty key fails to serialize, and a
mapping with a scalar message serializes to its fields, a blank line, and
the verbatim message. -/
theorem c10_kvlm_serialize_message_witness :
    kvlm_serialize kNoMsg = none
      ∧ ([97, 32, 120, 10, 98, 32, 1, 10, 98, 32, 2, 10, 10, 109].drop
            ([97, 32, 120, 10, 98, 32, 1, 10, 98, 32, 2, 10, 10, 109].length - 1) = [109]
          ∧ [97, 32, 120, 10, 98, 32, 1, 10, 98, 32, 2, 10, 10, 109][(kvlmFields kOK).length]?
            = some 10) :=
  ⟨(c10_kvlm_serialize_message kNoMsg).1 (by decide),
   by
    have h := (c10_kvlm_serialize_message kOK).2 [109]
      [97, 32, 120, 10, 98, 32, 1, 10, 98, 32, 2, 10, 10, 109] (by decide) (by decide)
    exact ⟨h.2.1, h.2.2.1⟩⟩

/-! ### KVLM round-trip helpers -/

theorem encodeCont_length (w : List Nat) : w.length ≤ (encodeCont w).length := by
  induction w with
  | nil => simp [encodeCont]
  | cons c w ih =>
    by_cases hc : c = 10
    · subst hc
      rw [encodeCont_ten]
      simp only [List.length_cons]
      omega
    · rw [encodeCont_ne_ten c w hc]
      simp only [List.length_cons]
      omega

theorem catList_cons (l : List Nat) (ls : List (List Nat)) :
    catList (l :: ls) = l ++ catList ls := rfl

theorem catList_append (a b : List (List Nat)) :
    catList (a ++ b) = catList a ++ catList b := by
  induction a with
  | nil => rfl
  | cons l ls ih => simp only [List.cons_append, catList_cons, ih, List.append_assoc]

theorem dctAdd_pass : ∀ (d0 : Dct) (k v : List Nat) (tail : Dct),
    (∀ kv ∈ d0, kv.1 ≠ k) →
    dctAddValue k v (d0 ++ tail) = d0 ++ dctAddValue k v tail := by
  intro d0
  induction d0 with
  | nil => intro k v tail _; rfl
  | cons e es ih =>
    intro k v tail h
    obtain ⟨k2, v2⟩ := e
    have hk2 : k2 ≠ k := h (k2, v2) (List.mem_cons_self _ _)
    simp only [List.cons_append, dctAddValue, if_neg hk2, List.append_eq]
    rw [ih k v tail (fun kv hkv => h kv (List.mem_cons_of_mem _ hkv))]

theorem dctSet_absent : ∀ (d : Dct) (k : List Nat) (v : VVal),
    (∀ kv ∈ d, kv.1 ≠ k) → dctSet k v d = d ++ [(k, v)] := by
  intro d
  induction d with
  | nil => intro k v _; rfl
  | cons e es ih =>
    intro k v h
    obtain ⟨k2, v2⟩ := e
    have hk2 : k2 ≠ k := h (k2, v2) (List.mem_cons_self _ _)
    simp only [dctSet, if_neg hk2, List.cons_append]
    rw [ih k v (fun kv hkv => h kv (List.mem_cons_of_mem _ hkv))]

theorem lookupV_pass : ∀ (d0 : Dct) (k : List Nat) (tail : Dct),
    (∀ kv ∈ d0, kv.1 ≠ k) → lookupV k (d0 ++ tail) = lookupV k tail := by
  intro d0
  induction d0 with
  | nil => intro k tail _; rfl
  | cons e es ih =>
    intro k tail h
    obtain ⟨k2, v2⟩ := e
    have hk2 : k2 ≠ k := h (k2, v2) (List.mem_cons_self _ _)
    simp only [List.cons_append, lookupV, if_neg hk2]
    exact ih k tail (fun kv hkv => h kv (List.mem_cons_of_mem _ hkv))

/-- The continuation-scanning loop of kvlm_parse stops exactly at the
newline that terminates the encoded value: every newline inside the
encoding is followed by a space, and the byte after the terminator is not
a space. -/
theorem findValueEnd_scan :
    ∀ (w : List Nat) (fuel : Nat) (raw : List Nat) (s e : Nat) (c : Nat) (rest : List Nat),
      raw.drop s = encodeCont w ++ 10 :: c :: rest → c ≠ 32 →
      e + 1 ≤ s → (∀ i, e + 1 ≤ i → i < s → raw[i]? ≠ some 10) →
      w.length + 1 ≤ fuel →
      findValueEnd raw fuel (e : Int) = some (((s + (encodeCont w).length : Nat) : Int)) := by
  intro w
  induction w with
  | nil =>
    intro fuel raw s e c rest hdrop hc he hgap hfuel
    rw [show encodeCont [] = [] from rfl, List.nil_append] at hdrop
    obtain ⟨f, rfl⟩ : ∃ f, fuel = f + 1 := ⟨fuel - 1, by omega⟩
    simp only [findValueEnd]
    have htn : Int.toNat ((e : Int) + 1) = e + 1 := by omega
    have hfind : bFind raw 10 (e + 1) = (s : Int) :=
      bFind_intro raw 10 (e + 1) s (getElem?_head_of_drop raw s 10 (c :: rest) hdrop) he hgap
    have htn2 : Int.toNat ((s : Int) + 1) = s + 1 := by omega
    have hc1 : raw[s + 1]? = some c := by
      have h2 := getElem?_of_drop raw (10 :: c :: rest) s hdrop 1
      simpa using h2
    simp only [htn, hfind, htn2, hc1]
    rw [if_neg hc]
    simp only [show encodeCont [] = [] from rfl, List.length_nil, Nat.add_zero]
  | cons c0 w ih =>
    intro fuel raw s e c rest hdrop hc he hgap hfuel
    by_cases hc0 : c0 = 10
    · subst hc0
      rw [encodeCont_ten] at hdrop
      simp only [List.cons_append] at hdrop
      obtain ⟨f, rfl⟩ : ∃ f, fuel = f + 1 := ⟨fuel - 1, by simp only [List.length_cons] at hfuel; omega⟩
      simp only [findValueEnd]
      have htn : Int.toNat ((e : Int) + 1) = e + 1 := by omega
      have hs0 : raw[s]? = some 10 := getElem?_head_of_drop raw s 10 _ hdrop
      have hfind : bFind raw 10 (e + 1) = (s : Int) := bFind_intro raw 10 (e + 1) s hs0 he hgap
      have htn2 : Int.toNat ((s : Int) + 1) = s + 1 := by omega
      have hs1 : raw[s + 1]? = some 32 := by
        have h2 := getElem?_of_drop raw _ s hdrop 1
        simpa using h2
      simp only [htn, hfind, htn2, hs1, if_true]
      have hdrop2 : raw.drop (s + 2) = encodeCont w ++ 10 :: c :: rest := by
        have h2 := drop_of_drop raw _ s hdrop 2
        simpa using h2
      have hgap2 : ∀ i, s + 1 ≤ i → i < s + 2 → raw[i]? ≠ some 10 := by
        intro i h1 h2
        have hieq : i = s + 1 := by omega
        subst hieq
        rw [hs1]
        decide
      have hlen : s + (encodeCont (10 :: w)).length = (s + 2) + (encodeCont w).length := by
        rw [encodeCont_ten]
        simp only [List.length_cons]
        omega
      rw [hlen]
      exact ih f raw (s + 2) s c rest hdrop2 hc (by omega) hgap2
        (by simp only [List.length_cons] at hfuel; omega)
    · rw [encodeCont_ne_ten c0 w hc0] at hdrop
      simp only [List.cons_append] at hdrop
      have hdrop2 : raw.drop (s + 1) = encodeCont w ++ 10 :: c :: rest := by
        have h2 := drop_of_drop raw _ s hdrop 1
        simpa using h2
      have hs0 : raw[s]? = some c0 := getElem?_head_of_drop raw s c0 _ hdrop
      have hgap2 : ∀ i, e + 1 ≤ i → i < s + 1 → raw[i]? ≠ some 10 := by
        intro i h1 h2
        by_cases hi : i < s
        · exact hgap i h1 hi
        · have hieq : i = s := by omega
          subst hieq
          rw [hs0]
          intro hq
          exact hc0 (by injection hq)
      have hlen : s + (encodeCont (c0 :: w)).length = (s + 1) + (encodeCont w).length := by
        rw [encodeCont_ne_ten c0 w hc0]
        simp only [List.length_cons]
        omega
      rw [hlen]
      exact ih fuel raw (s + 1) e c rest hdrop2 hc (by omega) hgap2
        (by simp only [List.length_cons] at hfuel; omega)

/-- One step of kvlm_parse across a well-formed header line: the key is
read up to the space, the encoded value up to its terminating newline,
and parsing continues right after the line with the pair collected. -/
theorem kvlmParseGo_line (fuel : Nat) (raw : List Nat) (start : Nat)
    (k v : List Nat) (c : Nat) (rest : List Nat) (dct : Dct)
    (hk : k ≠ []) (hk32 : 32 ∉ k) (hk10 : 10 ∉ k)
    (hdrop : raw.drop start = lineFor k v ++ c :: rest) (hc : c ≠ 32)
    (hfuel : v.length ≤ fuel) :
    kvlmParseGo (fuel + 1) raw start dct
      = kvlmParseGo fuel raw (start + (lineFor k v).length) (dctAddValue k v dct) := by
  have hdrop2 : raw.drop start = k ++ 32 :: (encodeCont v ++ 10 :: c :: rest) := by
    rw [hdrop]
    simp [lineFor]
  have hkb : ∀ i, i < k.length → raw[start + i]? = k[i]? := by
    intro i hi
    have h2 := getElem?_of_drop raw _ start hdrop2 i
    rw [h2]
    exact getElem?_append_left_of k _ i hi
  have hsp : raw[start + k.length]? = some 32 := by
    have h2 := getElem?_of_drop raw _ start hdrop2 k.length
    rw [h2]
    have h3 := getElem?_append_skip k (32 :: (encodeCont v ++ 10 :: c :: rest)) 0
    simpa using h3
  have hspc : bFind raw 32 start = ((start + k.length : Nat) : Int) := by
    apply bFind_intro raw 32 start (start + k.length) hsp (by omega)
    intro i h1 h2
    have hi : i - start < k.length := by omega
    have h3 := hkb (i - start) hi
    rw [show start + (i - start) = i by omega] at h3
    rw [h3]
    intro hq
    exact hk32 (mem_of_getElem? k (i - start) 32 hq)
  have hdropval : raw.drop (start + (k.length + 1)) = encodeCont v ++ 10 :: c :: rest := by
    have hsplit : raw.drop start = (k ++ [32]) ++ (encodeCont v ++ 10 :: c :: rest) := by
      rw [hdrop2]
      simp
    have h2 := drop_of_drop raw _ start hsplit (k.length + 1)
    rw [h2, show k.length + 1 = (k ++ [32]).length by simp, drop_append_exact]
  have hterm : raw[(start + (k.length + 1)) + (encodeCont v).length]? = some 10 := by
    have h2 := getElem?_of_drop raw _ _ hdropval (encodeCont v).length
    rw [h2]
    have h3 := getElem?_append_skip (encodeCont v) (10 :: c :: rest) 0
    simpa using h3
  have hnokey10 : ∀ i, start ≤ i → i < start + k.length + 1 → raw[i]? ≠ some 10 := by
    intro i h1 h2
    by_cases hi : i < start + k.length
    · have hii : i - start < k.length := by omega
      have h3 := hkb (i - start) hii
      rw [show start + (i - start) = i by omega] at h3
      rw [h3]
      intro hq
      exact hk10 (mem_of_getElem? k (i - start) 10 hq)
    · have hieq : i = start + k.length := by omega
      subst hieq
      rw [hsp]
      decide
  have hcond : ¬(bFind raw 32 start < 0 ∨ bFind raw 10 start < bFind raw 32 start) := by
    rw [hspc]
    cases hft : findAt raw 10 start with
    | none =>
      exact absurd hterm (findAt_none_elim raw 10 start hft _ (by omega))
    | some t =>
      have helim := findAt_elim raw 10 start t hft
      have hge : start + k.length + 1 ≤ t := by
        by_contra hlt
        push_neg at hlt
        exact hnokey10 t helim.1 hlt helim.2
      have hbf : bFind raw 10 start = (t : Int) := by simp only [bFind, hft]
      rw [hbf]
      intro hor
      rcases hor with h1 | h1 <;> omega
  have hscan : findValueEnd raw (fuel + 1) (start : Int)
      = some (((start + (k.length + 1)) + (encodeCont v).length : Nat) : Int) := by
    apply findValueEnd_scan v (fuel + 1) raw (start + (k.length + 1)) start c rest hdropval hc
      (by omega) ?_ (by omega)
    intro i h1 h2
    exact hnokey10 i (by omega) (by omega)
  have hkey : pySlice raw ((start : Nat) : Int) (((start + k.length : Nat)) : Int) = k := by
    rw [pySlice_drop_take raw start k.length, hdrop2]
    exact take_append_exact k _
  have hval : pySlice raw (((start + k.length : Nat) : Int) + 1)
      (((start + (k.length + 1)) + (encodeCont v).length : Nat) : Int) = encodeCont v := by
    have hcast : ((start + k.length : Nat) : Int) + 1 = ((start + (k.length + 1) : Nat) : Int) := by
      push_cast
      ring
    rw [hcast, pySlice_drop_take raw (start + (k.length + 1)) (encodeCont v).length, hdropval]
    exact take_append_exact (encodeCont v) _
  have hpos : Int.toNat ((((start + (k.length + 1)) + (encodeCont v).length : Nat) : Int) + 1)
      = start + (lineFor k v).length := by
    simp only [lineFor, List.length_append, List.length_cons, List.length_nil]
    omega
  simp only [kvlmParseGo]
  rw [if_neg hcond]
  simp only [hscan]
  rw [hspc, hkey, hval, decodeCont_encodeCont, hpos]

/-- The blank-line step of kvlm_parse: at the empty line the remainder of
the input is stored as the message under the empty key. -/
theorem kvlmParseGo_msg (fuel : Nat) (raw : List Nat) (start : Nat) (msg : List Nat)
    (dct : Dct) (hdrop : raw.drop start = 10 :: msg) :
    kvlmParseGo (fuel + 1) raw start dct = some (dctSet [] (VVal.scalar msg) dct) := by
  have hs0 : raw[start]? = some 10 := getElem?_head_of_drop raw start 10 msg hdrop
  have hnl : bFind raw 10 start = (start : Int) :=
    bFind_intro raw 10 start start hs0 (Nat.le_refl start)
      (fun i h1 h2 => absurd (lt_of_le_of_lt h1 h2) (lt_irrefl start))
  have hcond : bFind raw 32 start < 0 ∨ bFind raw 10 start < bFind raw 32 start := by
    rw [hnl]
    cases hft : findAt raw 32 start with
    | none =>
      left
      have hbf : bFind raw 32 start = (-1 : Int) := by simp only [bFind, hft]
      rw [hbf]
      omega
    | some t =>
      right
      have helim := findAt_elim raw 32 start t hft
      have hbf : bFind raw 32 start = (t : Int) := by simp only [bFind, hft]
      rw [hbf]
      have hne : t ≠ start := by
        intro he
        subst he
        rw [hs0] at helim
        exact absurd helim.2 (by decide)
      have hlt : start < t := lt_of_le_of_ne helim.1 (Ne.symm hne)
      omega
  have hps : pySliceFrom raw ((start : Int) + 1) = msg := by
    have hcast : ((start : Int) + 1) = ((start + 1 : Nat) : Int) := by
      push_cast
      ring
    rw [hcast, pySliceFrom_natCast]
    have h2 := drop_of_drop raw _ start hdrop 1
    simpa using h2
  simp only [kvlmParseGo]
  rw [if_pos hcond, if_pos hnl, hps]

/-- The byte after a serialized line is never a space: it is either the
first byte of the next key or the newline of the blank line. -/
theorem linesNe32 : ∀ (ps : List (List Nat × List Nat)) (msg : List Nat),
    (∀ p ∈ ps, p.1 ≠ [] ∧ 32 ∉ p.1) →
    ∃ c rest2,
      catList (ps.map (fun p => lineFor p.1 p.2)) ++ 10 :: msg = c :: rest2 ∧ c ≠ 32 := by
  intro ps msg hkeys
  cases ps with
  | nil =>
    refine ⟨10, msg, ?_, by decide⟩
    simp [catList]
  | cons p ps2 =>
    obtain ⟨k, v⟩ := p
    obtain ⟨hk1, hk32⟩ := hkeys (k, v) (List.mem_cons_self _ _)
    cases k with
    | nil => exact absurd rfl hk1
    | cons k0 ks =>
      have hne : k0 ≠ 32 := by
        intro he
        apply hk32
        rw [he]
        exact List.mem_cons_self _ _
      exact ⟨k0,
        (ks ++ 32 :: (encodeCont v ++ [10])) ++
          (catList (ps2.map (fun p => lineFor p.1 p.2)) ++ 10 :: msg),
        by simp [catList_cons, lineFor, List.append_assoc], hne⟩

/-- Parsing a block of well-formed serialized lines followed by the blank
line and message collects every key-value pair in order and stores the
message under the empty key. -/
theorem kvlmParseGo_lines :
    ∀ (ps : List (List Nat × List Nat)) (fuel : Nat) (raw : List Nat) (start : Nat)
      (msg : List Nat) (dct : Dct),
      raw.drop start = catList (ps.map (fun p => lineFor p.1 p.2)) ++ 10 :: msg →
      (∀ p ∈ ps, p.1 ≠ [] ∧ 32 ∉ p.1 ∧ 10 ∉ p.1) →
      (ps.map (fun p => p.2.length + 1)).sum + 1 ≤ fuel →
      kvlmParseGo fuel raw start dct
        = some (dctSet [] (VVal.scalar msg)
            (ps.foldl (fun d p => dctAddValue p.1 p.2 d) dct)) := by
  intro ps
  induction ps with
  | nil =>
    intro fuel raw start msg dct hdrop hkeys hfuel
    obtain ⟨f, rfl⟩ : ∃ f, fuel = f + 1 := ⟨fuel - 1, by omega⟩
    simp only [List.map_nil] at hdrop
    rw [show catList ([] : List (List Nat)) = [] from rfl, List.nil_append] at hdrop
    rw [kvlmParseGo_msg f raw start msg dct hdrop]
    rfl
  | cons p ps2 ih =>
    obtain ⟨k, v⟩ := p
    intro fuel raw start msg dct hdrop hkeys hfuel
    obtain ⟨hk1, hk32, hk10⟩ := hkeys (k, v) (List.mem_cons_self _ _)
    have hkeys2 : ∀ q ∈ ps2, q.1 ≠ [] ∧ 32 ∉ q.1 ∧ 10 ∉ q.1 :=
      fun q hq => hkeys q (List.mem_cons_of_mem _ hq)
    obtain ⟨c, rest2, heq, hc⟩ :=
      linesNe32 ps2 msg (fun q hq => ⟨(hkeys2 q hq).1, (hkeys2 q hq).2.1⟩)
    have hdrop2 : raw.drop start = lineFor k v ++ c :: rest2 := by
      rw [hdrop]
      simp only [List.map_cons, catList_cons, List.append_assoc]
      rw [heq]
    obtain ⟨f, rfl⟩ : ∃ f, fuel = f + 1 := ⟨fuel - 1, by omega⟩
    have hfv : v.length ≤ f := by
      simp at hfuel
      omega
    rw [kvlmParseGo_line f raw start k v c rest2 dct hk1 hk32 hk10 hdrop2 hc hfv]
    have hdrop3 : raw.drop (start + (lineFor k v).length)
        = catList (ps2.map (fun p => lineFor p.1 p.2)) ++ 10 :: msg := by
      have h2 := drop_of_drop raw _ start hdrop2 (lineFor k v).length
      rw [h2, drop_append_exact]
      exact heq.symm
    rw [ih f raw (start + (lineFor k v).length) msg (dctAddValue k v dct) hdrop3 hkeys2
      (by simp at hfuel ⊢; omega)]
    rfl

/-- Appending further values under a key already holding a list extends
that list in place. -/
theorem foldl_vlist_aux :
    ∀ (xs : List (List Nat)) (k : List Nat) (acc : List (List Nat)) (d0 : Dct),
      (∀ kv ∈ d0, kv.1 ≠ k) →
      (xs.map (fun x => (k, x))).foldl (fun d p => dctAddValue p.1 p.2 d)
          (d0 ++ [(k, VVal.vlist acc)])
        = d0 ++ [(k, VVal.vlist (acc ++ xs))] := by
  intro xs
  induction xs with
  | nil =>
    intro k acc d0 h
    simp
  | cons x xs2 ih =>
    intro k acc d0 h
    simp only [List.map_cons, List.foldl_cons]
    show (xs2.map (fun x2 => (k, x2))).foldl (fun d p => dctAddValue p.1 p.2 d)
        (dctAddValue k x (d0 ++ [(k, VVal.vlist acc)])) = _
    have hstep : dctAddValue k x (d0 ++ [(k, VVal.vlist acc)])
        = d0 ++ [(k, VVal.vlist (acc ++ [x]))] := by
      rw [dctAdd_pass d0 k x _ h]
      simp [dctAddValue]
    rw [hstep, ih k (acc ++ [x]) d0 h]
    simp

/-- Folding the emitted values of one list-valued entry over an absent key
recreates the entry, provided the list has at least two elements. -/
theorem foldl_vlist_full (xs : List (List Nat)) (k : List Nat) (d0 : Dct)
    (h : ∀ kv ∈ d0, kv.1 ≠ k) (hlen : 2 ≤ xs.length) :
    (xs.map (fun x => (k, x))).foldl (fun d p => dctAddValue p.1 p.2 d) d0
      = d0 ++ [(k, VVal.vlist xs)] := by
  cases xs with
  | nil => simp at hlen
  | cons x1 xs1 =>
    cases xs1 with
    | nil => simp at hlen
    | cons x2 xs2 =>
      simp only [List.map_cons, List.foldl_cons]
      show (xs2.map (fun x => (k, x))).foldl (fun d p => dctAddValue p.1 p.2 d)
          (dctAddValue k x2 (dctAddValue k x1 d0)) = d0 ++ [(k, VVal.vlist (x1 :: x2 :: xs2))]
      have h1 : dctAddValue k x1 d0 = d0 ++ [(k, VVal.scalar x1)] := by
        have h2 := dctAdd_pass d0 k x1 [] h
        simpa [dctAddValue] using h2
      rw [h1]
      have h2 : dctAddValue k x2 (d0 ++ [(k, VVal.scalar x1)])
          = d0 ++ [(k, VVal.vlist [x1, x2])] := by
        rw [dctAdd_pass d0 k x2 [(k, VVal.scalar x1)] h]
        simp [dctAddValue]
      rw [h2, foldl_vlist_aux xs2 k [x1, x2] d0 h]
      simp

/-- Folding all emitted lines of a well-formed mapping back through the
duplicate-key collection step reconstructs the mapping. -/
theorem foldl_linePairs :
    ∀ (flds : Dct) (d0 : Dct),
      (flds.map Prod.fst).Nodup →
      (∀ kv ∈ flds, ∀ kv2 ∈ d0, kv2.1 ≠ kv.1) →
      (∀ kv ∈ flds, ∀ xs, kv.2 = VVal.vlist xs → 2 ≤ xs.length) →
      (linePairs flds).foldl (fun d p => dctAddValue p.1 p.2 d) d0 = d0 ++ flds := by
  intro flds
  induction flds with
  | nil =>
    intro d0 _ _ _
    simp [linePairs]
  | cons e es ih =>
    obtain ⟨k, vv⟩ := e
    intro d0 hnodup hdisj hvl
    rw [List.map_cons, List.nodup_cons] at hnodup
    have hk_not_es : ∀ kv ∈ es, kv.1 ≠ k := by
      intro kv hkv he
      have hmem : k ∈ es.map Prod.fst := by
        rw [← he]
        exact List.mem_map_of_mem Prod.fst hkv
      exact hnodup.1 hmem
    have hdisj_k : ∀ kv2 ∈ d0, kv2.1 ≠ k :=
      fun kv2 h2 => hdisj (k, vv) (List.mem_cons_self _ _) kv2 h2
    have hdisj2 : ∀ (w : VVal) (kv : List Nat × VVal), kv ∈ es →
        ∀ kv2 ∈ d0 ++ [(k, w)], kv2.1 ≠ kv.1 := by
      intro w kv hkv kv2 h2
      rcases List.mem_append.mp h2 with h3 | h3
      · exact hdisj kv (List.mem_cons_of_mem _ hkv) kv2 h3
      · have hkv2 : kv2 = (k, w) := by simpa using h3
        subst hkv2
        exact fun he => hk_not_es kv hkv he.symm
    have hvl2 : ∀ kv ∈ es, ∀ xs, kv.2 = VVal.vlist xs → 2 ≤ xs.length :=
      fun kv hkv xs hx => hvl kv (List.mem_cons_of_mem _ hkv) xs hx
    cases vv with
    | scalar x =>
      simp only [linePairs, List.foldl_cons]
      show (linePairs es).foldl (fun d p => dctAddValue p.1 p.2 d) (dctAddValue k x d0)
          = d0 ++ (k, VVal.scalar x) :: es
      have hstep : dctAddValue k x d0 = d0 ++ [(k, VVal.scalar x)] := by
        have h2 := dctAdd_pass d0 k x [] hdisj_k
        simpa [dctAddValue] using h2
      rw [hstep, ih (d0 ++ [(k, VVal.scalar x)]) hnodup.2 (hdisj2 (VVal.scalar x)) hvl2]
      simp
    | vlist xs =>
      have hxs : 2 ≤ xs.length := hvl (k, VVal.vlist xs) (List.mem_cons_self _ _) xs rfl
      simp only [linePairs]
      rw [List.foldl_append]
      rw [foldl_vlist_full xs k d0 hdisj_k hxs]
      rw [ih (d0 ++ [(k, VVal.vlist xs)]) hnodup.2 (hdisj2 (VVal.vlist xs)) hvl2]
      simp

/-- The field region kvlm_serialize emits for a mapping with nonempty keys
is the concatenation of its lines, one per emitted key-value pair. -/
theorem kvlmFields_linePairs :
    ∀ (flds : Dct) (tail : Dct),
      (∀ kv ∈ flds, kv.1 ≠ []) →
      kvlmFields (flds ++ tail)
        = catList ((linePairs flds).map (fun p => lineFor p.1 p.2)) ++ kvlmFields tail := by
  intro flds
  induction flds with
  | nil =>
    intro tail _
    simp [linePairs, catList]
  | cons e es ih =>
    obtain ⟨k, vv⟩ := e
    intro tail hk
    have hk1 : k ≠ [] := hk (k, vv) (List.mem_cons_self _ _)
    have ih2 := ih tail (fun kv h2 => hk kv (List.mem_cons_of_mem _ h2))
    cases vv with
    | scalar x =>
      have hstep : kvlmFields ((k, VVal.scalar x) :: (es ++ tail))
          = lineFor k x ++ kvlmFields (es ++ tail) := by
        simp [kvlmFields, catList_cons, fieldBytes, hk1]
      rw [show ((k, VVal.scalar x) :: es) ++ tail = (k, VVal.scalar x) :: (es ++ tail) from rfl,
        hstep, ih2]
      simp [linePairs, catList_cons, List.append_assoc]
    | vlist xs =>
      have hstep : kvlmFields ((k, VVal.vlist xs) :: (es ++ tail))
          = catList (xs.map (lineFor k)) ++ kvlmFields (es ++ tail) := by
        simp [kvlmFields, catList_cons, fieldBytes, hk1]
      rw [show ((k, VVal.vlist xs) :: es) ++ tail = (k, VVal.vlist xs) :: (es ++ tail) from rfl,
        hstep, ih2]
      simp [linePairs, catList_append, List.map_map, Function.comp, List.append_assoc]
      rw [show ((fun p => lineFor p.1 p.2) ∘ fun x => ((k, x) : List Nat × List Nat))
          = lineFor k from funext (fun x => rfl)]

/-- Every emitted line pair carries the key of some entry of the mapping. -/
theorem linePairs_key_mem : ∀ (flds : Dct) (p : List Nat × List Nat),
    p ∈ linePairs flds → ∃ kv ∈ flds, p.1 = kv.1 := by
  intro flds
  induction flds with
  | nil =>
    intro p hp
    simp [linePairs] at hp
  | cons e es ih =>
    obtain ⟨k, vv⟩ := e
    intro p hp
    cases vv with
    | scalar x =>
      simp only [linePairs] at hp
      rcases List.mem_cons.mp hp with h1 | h1
      · exact ⟨(k, VVal.scalar x), List.mem_cons_self _ _, by rw [h1]⟩
      · obtain ⟨kv, hkv, he⟩ := ih p h1
        exact ⟨kv, List.mem_cons_of_mem _ hkv, he⟩
    | vlist xs =>
      simp only [linePairs] at hp
      rcases List.mem_append.mp hp with h1 | h1
      · obtain ⟨x, _, he⟩ := List.mem_map.mp h1
        exact ⟨(k, VVal.vlist xs), List.mem_cons_self _ _, by rw [← he]⟩
      · obtain ⟨kv, hkv, he⟩ := ih p h1
        exact ⟨kv, List.mem_cons_of_mem _ hkv, he⟩

/-- A serialized line is longer than its value, so the total length of the
field region bounds the fuel the parser consumes. -/
theorem lines_sum_le : ∀ (ps : List (List Nat × List Nat)),
    (∀ p ∈ ps, p.1 ≠ []) →
    (ps.map (fun p => p.2.length + 1)).sum
      ≤ (catList (ps.map (fun p => lineFor p.1 p.2))).length := by
  intro ps
  induction ps with
  | nil =>
    intro _
    simp [catList]
  | cons p ps2 ih =>
    intro h
    have hp1 : p.1 ≠ [] := (h p (List.mem_cons_self _ _))
    have hlf : p.2.length + 1 ≤ (lineFor p.1 p.2).length := by
      have he := encodeCont_length p.2
      have hkpos : 0 < p.1.length := List.length_pos.mpr hp1
      simp only [lineFor, List.length_append, List.length_cons, List.length_nil]
      omega
    have ih2 := ih (fun q hq => h q (List.mem_cons_of_mem _ hq))
    simp only [List.map_cons, List.sum_cons, catList_cons, List.length_append]
    omega

/-- C7: the KVLM round-trip as amended: for a mapping whose header fields
carry nonempty keys free of space and newline bytes, with no duplicate
keys, whose list values hold at least two elements, and whose final entry
is the scalar message under the empty key, parsing the serialization with
fuel at least the output length returns exactly the original mapping.
This corrects the literal claim: a singleton list value serializes to one
line and reparses as a scalar, so the unamended round trip fails. -/
theorem c7_kvlm_roundtrip_amended
    (flds : Dct) (m out : List Nat) (fuel : Nat)
    (hkeys : ∀ kv ∈ flds, kv.1 ≠ [] ∧ 32 ∉ kv.1 ∧ 10 ∉ kv.1)
    (hnodup : (flds.map Prod.fst).Nodup)
    (hvl : ∀ kv ∈ flds, ∀ xs, kv.2 = VVal.vlist xs → 2 ≤ xs.length)
    (hser : kvlm_serialize (flds ++ [([], VVal.scalar m)]) = some out)
    (hfuel : out.length ≤ fuel) :
    kvlm_parse fuel out = some (flds ++ [([], VVal.scalar m)]) := by
  have hk1 : ∀ kv ∈ flds, kv.1 ≠ [] := fun kv h => (hkeys kv h).1
  have hlk : lookupV [] (flds ++ [([], VVal.scalar m)]) = some (VVal.scalar m) := by
    rw [lookupV_pass flds [] _ hk1]
    rfl
  have hout : out = catList ((linePairs flds).map (fun p => lineFor p.1 p.2)) ++ 10 :: m := by
    unfold kvlm_serialize at hser
    rw [hlk] at hser
    injection hser with hser
    rw [← hser, kvlmFields_linePairs flds [([], VVal.scalar m)] hk1,
      show kvlmFields [([], VVal.scalar m)] = [] from rfl]
    simp
  have hpk : ∀ p ∈ linePairs flds, p.1 ≠ [] ∧ 32 ∉ p.1 ∧ 10 ∉ p.1 := by
    intro p hp
    obtain ⟨kv, hkv, he⟩ := linePairs_key_mem flds p hp
    rw [he]
    exact hkeys kv hkv
  have hsum : ((linePairs flds).map (fun p => p.2.length + 1)).sum + 1 ≤ fuel := by
    have h1 := lines_sum_le (linePairs flds) (fun p hp => (hpk p hp).1)
    have h2 : (catList ((linePairs flds).map (fun p => lineFor p.1 p.2))).length + 1
        ≤ out.length := by
      rw [hout]
      simp only [List.length_append, List.length_cons]
      omega
    omega
  unfold kvlm_parse
  rw [hout, kvlmParseGo_lines (linePairs flds) fuel _ 0 m [] (by rw [List.drop_zero]) hpk hsum,
    foldl_linePairs flds [] hnodup (by intro kv _ kv2 h2; simp at h2) hvl,
    show ([] : Dct) ++ flds = flds from rfl,
    dctSet_absent flds [] (VVal.scalar m) (fun kv h => hk1 kv h)]

/-- C7 witness: a two-field mapping with a scalar value, a two-element
list value and a message serializes and reparses to itself. -/
theorem c7_kvlm_roundtrip_witness :
    kvlm_serialize kOK = some [97, 32, 120, 10, 98, 32, 1, 10, 98, 32, 2, 10, 10, 109]
      ∧ kvlm_parse 15 [97, 32, 120, 10, 98, 32, 1, 10, 98, 32, 2, 10, 10, 109] = some kOK :=
  ⟨by decide,
   c7_kvlm_roundtrip_amended [([97], VVal.scalar [120]), ([98], VVal.vlist [[1], [2]])]
     [109] [97, 32, 120, 10, 98, 32, 1, 10, 98, 32, 2, 10, 10, 109] 15
     (by decide) (by decide)
     (by
       intro kv hkv xs hx
       cases hkv with
       | head =>
         simp at hx
       | tail _ h2 =>
         cases h2 with
         | head =>
           injection hx with hx
           rw [← hx]
           decide
         | tail _ h3 => cases h3)
     (by decide) (by decide)⟩
